import Mathlib

/-!
Verification of the documentation chunking and retrieval-assembly pipelines of
the `@neuledge/context` package.

The definitions below are a shallow embedding of the TypeScript sources
`packages/context/src/build.ts`, `packages/context/src/search.ts` and the
package builder (`buildPackage`).  Text is modelled as `List Char`; the JS
regular expressions used by the source are implemented as the deterministic
scanners they denote.  The external SQLite FTS index is modelled as an oracle
function, and the 16-hex-character MD5 content hashes used purely as
set/dedup keys are modelled as the hashed text itself (an injective key).
-/

namespace Ctx

/-- Token estimator from `build.ts`: `Math.ceil(text.length / 4)`. -/
def estimateTokens (l : List Char) : Nat := (l.length + 3) / 4

/-- JS whitespace (`\s` character class / `String.prototype.trim` set):
space, tab, LF, VT, FF, CR, NBSP, BOM, LS, PS. -/
def jsWs (c : Char) : Bool :=
  c = ' ' || c = '\t' || c = '\n' || c = Char.ofNat 11 || c = Char.ofNat 12 ||
  c = '\r' || c = Char.ofNat 160 || c = Char.ofNat 0xfeff ||
  c = Char.ofNat 0x2028 || c = Char.ofNat 0x2029

/-- `String.prototype.trim`. -/
def trim (l : List Char) : List Char :=
  ((l.dropWhile jsWs).reverse.dropWhile jsWs).reverse

/-- Helper for splitting scanners: prepend a character to the first piece. -/
def consHead (c : Char) : List (List Char) → List (List Char)
  | [] => [[c]]
  | h :: t => (c :: h) :: t

/-- `content.split("\n")` from `splitOversizedContent`. -/
def linesOf : List Char → List (List Char)
  | [] => [[]]
  | c :: rest => if c = '\n' then [] :: linesOf rest else consHead c (linesOf rest)

theorem length_dropWhile_le (p : Char → Bool) (l : List Char) :
    (l.dropWhile p).length ≤ l.length := by
  induction l with
  | nil => simp [List.dropWhile]
  | cons c rest ih =>
    by_cases h : p c <;> simp [List.dropWhile, h] <;> omega

/-- State machine for `content.split(/\n\n+/)`: in state `true` the scanner
is inside a separator run and drops the remaining newlines. -/
def parasGo : Bool → List Char → List (List Char)
  | _, [] => [[]]
  | true, c :: rest =>
    if c = '\n' then parasGo true rest else consHead c (parasGo false rest)
  | false, c :: rest =>
    if c = '\n' ∧ rest.head? = some '\n' then [] :: parasGo true rest
    else consHead c (parasGo false rest)

/-- `content.split(/\n\n+/)` from `splitAtParagraphs`: split at maximal runs
of at least two newlines. -/
def parasOf (l : List Char) : List (List Char) := parasGo false l

/-- Length of the leading newline run. -/
def countNl : List Char → Nat
  | [] => 0
  | c :: rest => if c = '\n' then countNl rest + 1 else 0

/-- State machine for `content.replace(/\n{3,}/g, "\n\n")`: in state `true`
the scanner is inside a collapsed run and drops the remaining newlines. -/
def collNlGo : Bool → List Char → List Char
  | _, [] => []
  | true, c :: rest =>
    if c = '\n' then collNlGo true rest else c :: collNlGo false rest
  | false, c :: rest =>
    if c = '\n' then
      if 2 ≤ countNl rest then '\n' :: '\n' :: collNlGo true rest
      else c :: collNlGo false rest
    else c :: collNlGo false rest

/-- `content.replace(/\n{3,}/g, "\n\n")` from `cleanMdxContent`: a maximal
run of three or more newlines becomes exactly two. -/
def collapseNl (l : List Char) : List Char := collNlGo false l

/-- ASCII `[a-zA-Z]`. -/
def isAsciiAlpha (c : Char) : Bool :=
  ('A' ≤ c && c ≤ 'Z') || ('a' ≤ c && c ≤ 'z')

/-- ASCII `[A-Z]`. -/
def isUpperAZ (c : Char) : Bool := 'A' ≤ c && c ≤ 'Z'

/-- Match the body of the MDX tag regex `<\/?[A-Z][a-zA-Z]*\s*\/?>` after the
(optional) leading slash: `[A-Z][a-zA-Z]*\s*\/?>`.  Returns the rest of the
input after the closing `>` on success. -/
def tryTagBody (l : List Char) : Option (List Char) :=
  match l with
  | [] => none
  | u :: rest =>
    if isUpperAZ u then
      match (rest.dropWhile isAsciiAlpha).dropWhile jsWs with
      | '/' :: '>' :: r => some r
      | '>' :: r => some r
      | _ => none
    else none

/-- Match the tag regex right after its `<`, consuming an optional `/`. -/
def tryTag (l : List Char) : Option (List Char) :=
  if l.head? = some '/' then tryTagBody l.tail else tryTagBody l

theorem tryTagBody_length {l r : List Char} (h : tryTagBody l = some r) :
    r.length < l.length := by
  cases l with
  | nil => simp [tryTagBody] at h
  | cons u rest =>
    rw [tryTagBody] at h
    split at h
    · have h1 := length_dropWhile_le isAsciiAlpha rest
      have h2 := length_dropWhile_le jsWs (rest.dropWhile isAsciiAlpha)
      split at h
      case h_1 r' heq =>
        rw [heq] at h2
        simp only [Option.some.injEq] at h
        subst h
        simp only [List.length_cons] at h2 ⊢
        omega
      case h_2 r' heq =>
        rw [heq] at h2
        simp only [Option.some.injEq] at h
        subst h
        simp only [List.length_cons] at h2 ⊢
        omega
      case h_3 => exact absurd h (by simp)
    · simp at h

theorem tryTag_length {l r : List Char} (h : tryTag l = some r) :
    r.length ≤ l.length := by
  unfold tryTag at h
  split at h
  · have h1 := tryTagBody_length h
    have h2 : l.tail.length ≤ l.length := by cases l <;> simp
    omega
  · exact Nat.le_of_lt (tryTagBody_length h)

/-- Fuelled scanner for the tag-removal pass; with `l.length ≤ fuel` the
fuel never runs out (each step consumes at least one character). -/
def removeTagsF : Nat → List Char → List Char
  | _, [] => []
  | 0, l => l
  | fuel + 1, c :: rest =>
    if c = '<' then
      match tryTag rest with
      | some r => removeTagsF fuel r
      | none => '<' :: removeTagsF fuel rest
    else c :: removeTagsF fuel rest

/-- `content.replace(/<\/?[A-Z][a-zA-Z]*\s*\/?>/g, "")` from
`cleanMdxContent`: left-to-right single pass removing each tag match. -/
def removeTags (l : List Char) : List Char := removeTagsF l.length l

/-- `cleanMdxContent` from `build.ts`: strip MDX tags, collapse 3+ blank
lines, trim. -/
def cleanMdxContent (l : List Char) : List Char :=
  trim (collapseNl (removeTags l))

/-- Does the text start with three backticks? -/
def startsTicks : List Char → Bool
  | '`' :: '`' :: '`' :: _ => true
  | _ => false

/-- Position of the first occurrence of three consecutive backticks. -/
def findTicks : List Char → Option Nat
  | [] => none
  | c :: rest =>
    if startsTicks (c :: rest) then some 0 else (findTicks rest).map (· + 1)

/-- First match of the non-greedy fence regex `/```[\s\S]*?```/`:
start index and end index (exclusive) of the match. -/
def findFence (l : List Char) : Option (Nat × Nat) :=
  match findTicks l with
  | none => none
  | some i =>
    match findTicks (l.drop (i + 3)) with
    | none => none
    | some j => some (i, i + 3 + j + 3)

theorem startsTicks_length {l : List Char} (h : startsTicks l = true) :
    3 ≤ l.length := by
  match l with
  | [] => simp [startsTicks] at h
  | [c] => simp [startsTicks.eq_def] at h
  | [c, d] => simp [startsTicks.eq_def] at h
  | c :: d :: e :: rest => simp

theorem findTicks_le {l : List Char} {i : Nat} (h : findTicks l = some i) :
    i + 3 ≤ l.length := by
  induction l generalizing i with
  | nil => simp [findTicks] at h
  | cons c rest ih =>
    rw [findTicks] at h
    split at h
    case isTrue hs =>
      simp only [Option.some.injEq] at h
      subst h
      simpa using startsTicks_length hs
    case isFalse =>
      simp only [Option.map_eq_some'] at h
      obtain ⟨j, hj, rfl⟩ := h
      have := ih hj
      simp only [List.length_cons]
      omega

theorem findFence_bounds {l : List Char} {i e : Nat}
    (h : findFence l = some (i, e)) : i + 6 ≤ e ∧ e ≤ l.length := by
  unfold findFence at h
  split at h
  · simp at h
  case h_2 i' h1 =>
    split at h
    · simp at h
    case h_2 j h2 =>
      simp only [Option.some.injEq, Prod.mk.injEq] at h
      obtain ⟨rfl, rfl⟩ := h
      have b1 := findTicks_le h1
      have b2 := findTicks_le h2
      simp only [List.length_drop] at b2
      omega

/-- Fuelled segment decomposition performed by the `matchAll` loop of
`splitOversizedContent`: alternating gap/fence segments covering the input.
The `Bool` marks fence segments (pushed raw); gaps are trimmed later.
With `l.length ≤ fuel` the fuel never runs out (a fence consumes at least
six characters). -/
def fenceSegsF : Nat → List Char → List (List Char × Bool)
  | 0, l => [(l, false)]
  | fuel + 1, l =>
    match findFence l with
    | none => [(l, false)]
    | some (i, e) =>
      (l.take i, false) :: ((l.drop i).take (e - i), true) ::
        fenceSegsF fuel (l.drop e)

/-- The segment decomposition of the `matchAll` loop. -/
def fenceSegs (l : List Char) : List (List Char × Bool) :=
  fenceSegsF l.length l

/-- How one segment contributes to the `parts` array: fence matches are pushed
raw, gaps are trimmed and dropped when empty. -/
def partsOfSeg (s : List Char × Bool) : List (List Char) :=
  if s.2 then [s.1] else if trim s.1 = [] then [] else [trim s.1]

/-- The `parts` array built by the fence-splitting loop of
`splitOversizedContent`. -/
def fenceParts (l : List Char) : List (List Char) :=
  (fenceSegs l).flatMap partsOfSeg

theorem trim_length_le (l : List Char) : (trim l).length ≤ l.length := by
  unfold trim
  have h1 := length_dropWhile_le jsWs l
  have h2 := length_dropWhile_le jsWs (l.dropWhile jsWs).reverse
  simp only [List.length_reverse] at *
  omega

theorem partsOfSeg_sum (s : List Char × Bool) :
    ((partsOfSeg s).map List.length).sum ≤ s.1.length := by
  unfold partsOfSeg
  split
  · simp
  · split
    · simp
    · simpa using trim_length_le s.1

theorem fenceSegsF_sum (fuel : Nat) :
    ∀ l : List Char,
      (((fenceSegsF fuel l).flatMap partsOfSeg).map List.length).sum ≤
        l.length := by
  induction fuel with
  | zero =>
    intro l
    simpa [fenceSegsF] using partsOfSeg_sum (l, false)
  | succ fuel ih =>
    intro l
    rw [fenceSegsF]
    cases h : findFence l with
    | none => simpa using partsOfSeg_sum (l, false)
    | some ie =>
      obtain ⟨i, e⟩ := ie
      simp only [List.flatMap_cons, List.map_append, List.sum_append]
      have b := findFence_bounds h
      have p1 := partsOfSeg_sum (l.take i, false)
      have p2 := partsOfSeg_sum ((l.drop i).take (e - i), true)
      have p3 := ih (l.drop e)
      simp only [List.length_take, List.length_drop] at p1 p2 p3
      omega

theorem fenceParts_sum (l : List Char) :
    ((fenceParts l).map List.length).sum ≤ l.length :=
  fenceSegsF_sum l.length l

theorem partsOfSeg_mem_pos {s : List Char × Bool}
    (hfence : s.2 = true → 0 < s.1.length) :
    ∀ p ∈ partsOfSeg s, 0 < p.length := by
  intro p hp
  unfold partsOfSeg at hp
  by_cases hb : s.2 = true
  · rw [if_pos hb] at hp
    simp only [List.mem_singleton] at hp
    subst hp
    exact hfence hb
  · rw [if_neg hb] at hp
    by_cases ht : trim s.1 = []
    · rw [if_pos ht] at hp
      simp at hp
    · rw [if_neg ht] at hp
      simp only [List.mem_singleton] at hp
      subst hp
      exact List.length_pos.mpr ht

theorem fenceSegsF_pos (fuel : Nat) :
    ∀ l : List Char, ∀ p ∈ (fenceSegsF fuel l).flatMap partsOfSeg,
      0 < p.length := by
  induction fuel with
  | zero =>
    intro l p hp
    rw [fenceSegsF] at hp
    simp only [List.flatMap_cons, List.flatMap_nil, List.append_nil] at hp
    exact partsOfSeg_mem_pos (by simp) p hp
  | succ fuel ih =>
    intro l p hp
    rw [fenceSegsF] at hp
    revert hp
    cases h : findFence l with
    | none =>
      intro hp
      simp only [List.flatMap_cons, List.flatMap_nil, List.append_nil] at hp
      exact partsOfSeg_mem_pos (by simp) p hp
    | some ie =>
      obtain ⟨i, e⟩ := ie
      intro hp
      rw [List.flatMap_cons, List.flatMap_cons] at hp
      have b := findFence_bounds h
      rcases List.mem_append.1 hp with hp1 | hp'
      · exact partsOfSeg_mem_pos (by simp) p hp1
      · rcases List.mem_append.1 hp' with hp2 | hp3
        · refine partsOfSeg_mem_pos (fun _ => ?_) p hp2
          simp only [List.length_take, List.length_drop]
          omega
        · exact ih (l.drop e) p hp3

theorem fenceParts_pos (l : List Char) :
    ∀ p ∈ fenceParts l, 0 < p.length :=
  fenceSegsF_pos l.length l

theorem fenceParts_lt {l : List Char} (hlen : 1 < (fenceParts l).length)
    {p : List Char} (hp : p ∈ fenceParts l) : p.length < l.length := by
  obtain ⟨s, t, hst⟩ := List.append_of_mem hp
  have hsum := fenceParts_sum l
  have hpos := fenceParts_pos l
  rw [hst] at hsum hlen
  simp only [List.map_append, List.sum_append, List.map_cons, List.sum_cons,
    List.length_append, List.length_cons] at hsum hlen
  cases s with
  | cons a s' =>
    have ha : a ∈ fenceParts l := by rw [hst]; simp
    have := hpos a ha
    simp only [List.map_cons, List.sum_cons] at hsum
    omega
  | nil =>
    cases t with
    | nil => simp at hlen
    | cons b t' =>
      have hb : b ∈ fenceParts l := by rw [hst]; simp
      have := hpos b hb
      simp only [List.map_cons, List.sum_cons, List.map_nil, List.sum_nil] at hsum
      omega

/-- The line-accumulation loop at the end of `splitOversizedContent`
(arguments: remaining lines, `currentChunk`, `currentTokens`). -/
def lineGo : List (List Char) → List Char → Nat → List (List Char)
  | [], cur, _ => if trim cur = [] then [] else [trim cur]
  | line :: rest, cur, tok =>
    let lt := estimateTokens (line ++ ['\n'])
    if 1200 < tok + lt ∧ cur ≠ [] then
      trim cur :: lineGo rest line lt
    else lineGo rest (cur ++ if cur = [] then line else '\n' :: line) (tok + lt)

/-- The "single block still too large - split by lines" fallback of
`splitOversizedContent`. -/
def lineChunks (l : List Char) : List (List Char) := lineGo (linesOf l) [] 0

/-- Fuelled recursion for `splitOversizedContent`; with `l.length ≤ fuel` the
fuel never runs out, because when the fence split yields two or more parts
every part is strictly shorter than the input (`fenceParts_lt`). -/
def socF : Nat → List Char → List (List Char)
  | 0, l => [l]
  | fuel + 1, l =>
    if estimateTokens l ≤ 1200 then [l]
    else if 1 < (fenceParts l).length then
      (fenceParts l).flatMap (socF fuel)
    else lineChunks l

/-- `splitOversizedContent` from `build.ts`: under the hard limit return the
content whole; otherwise split at code-fence boundaries and recurse, or split
by lines if there is a single part. -/
def splitOversizedContent (l : List Char) : List (List Char) :=
  socF l.length l

/-- JS `String.prototype.includes` on character lists. -/
def containsSub (pat : List Char) : List Char → Bool
  | [] => pat.isEmpty
  | c :: rest => pat.isPrefixOf (c :: rest) || containsSub pat rest

/-- Try to match the markdown link regex `\[([^\]]*)\]\([^)]+\)` at the very
start of the input.  On success returns the match length and the rest. -/
def tryLink : List Char → Option (Nat × List Char)
  | '[' :: rest =>
    match rest.dropWhile (· ≠ ']') with
    | ']' :: '(' :: r2 =>
      if (r2.takeWhile (· ≠ ')')).isEmpty then none
      else
        match r2.dropWhile (· ≠ ')') with
        | ')' :: r3 =>
          some ((rest.takeWhile (· ≠ ']')).length +
            (r2.takeWhile (· ≠ ')')).length + 4, r3)
        | _ => none
    | _ => none
  | _ => none

theorem tryLink_length {l : List Char} {n : Nat} {r : List Char}
    (h : tryLink l = some (n, r)) : r.length < l.length := by
  match l with
  | [] => simp [tryLink] at h
  | c :: rest =>
    rw [tryLink.eq_def] at h
    split at h
    case h_2 => simp at h
    case h_1 rest2 heq0 =>
      injection heq0 with hc hr
      subst hc
      subst hr
      split at h
      case h_2 => simp at h
      case h_1 r2 heq =>
        split at h
        · simp at h
        · split at h
          case h_2 => simp at h
          case h_1 r3 heq2 =>
            simp only [Option.some.injEq, Prod.mk.injEq] at h
            obtain ⟨-, rfl⟩ := h
            have h1 := length_dropWhile_le (· ≠ ']') rest
            have h2 := length_dropWhile_le (· ≠ ')') r2
            rw [heq] at h1
            rw [heq2] at h2
            simp only [List.length_cons] at h1 h2 ⊢
            omega

/-- Fuelled scanner summing markdown-link match lengths; with
`l.length ≤ fuel` the fuel never runs out. -/
def linkLenF : Nat → List Char → Nat
  | _, [] => 0
  | 0, _ => 0
  | fuel + 1, c :: rest =>
    match tryLink (c :: rest) with
    | some (n, r) => n + linkLenF fuel r
    | none => linkLenF fuel rest

/-- Total length of all markdown-link matches
(`content.match(linkPattern)` and the sum in `isTableOfContents`). -/
def linkLen (l : List Char) : Nat := linkLenF l.length l

/-- `hasCodeBlock` from `build.ts`: `/```[\s\S]*?```/.test(content)`. -/
def hasCodeBlock (l : List Char) : Bool := (findFence l).isSome

/-- `sectionTitle.toLowerCase()`, characterwise (ASCII case mapping, which
covers the headings the title test compares against). -/
def lowerAscii (s : String) : List Char := s.data.map Char.toLower

/-- `isTableOfContents` from `build.ts`.  Note the title test uses substring
containment (`includes`) for "table of contents" and equality for the other
three; the ratio test `linkTextLength / content.length > 0.5` is the exact
rational comparison `2 * linkTextLength > content.length`. -/
def isTableOfContents (sectionTitle : String) (content : List Char) : Bool :=
  let lower := lowerAscii sectionTitle
  if containsSub "table of contents".data lower || lower == "toc".data ||
      lower == "contents".data || lower == "index".data then true
  else 0 < content.length && content.length < 2 * linkLen content

/-- A chunk/section produced by the build pipeline (`DocSection` in
`build.ts`). -/
structure DocSection where
  docPath : String
  docTitle : String
  sectionTitle : String
  content : List Char
  tokens : Nat
  hasCode : Bool
deriving DecidableEq, Repr

/-- `createSection` from `build.ts`: clean, re-estimate, filter out empty or
sub-`MIN_CHUNK_TOKENS` pieces, suffix `" (part N)"` from N=2 on. -/
def createSection (path dt st : String) (content : List Char) (partNum : Nat) :
    Option DocSection :=
  if cleanMdxContent content = [] ∨
      estimateTokens (cleanMdxContent content) < 5 then none
  else some
    { docPath := path
      docTitle := dt
      sectionTitle :=
        if 1 < partNum then st ++ " (part " ++ toString partNum ++ ")" else st
      content := cleanMdxContent content
      tokens := estimateTokens (cleanMdxContent content)
      hasCode := hasCodeBlock (cleanMdxContent content) }

/-- The `for (const subPart of subParts)` loop of `splitAtParagraphs`:
emit a section per surviving piece, threading the part counter. -/
def emitParts (path dt st : String) : List (List Char) → Nat →
    List DocSection × Nat
  | [], pn => ([], pn)
  | ch :: rest, pn =>
    match createSection path dt st ch pn with
    | some s =>
      let e := emitParts path dt st rest (pn + 1)
      (s :: e.1, e.2)
    | none => emitParts path dt st rest pn

/-- The paragraph-accumulation loop of `splitAtParagraphs`
(arguments: remaining paragraphs, `currentContent`, `currentTokens`,
`partNum`). -/
def sapGo (path dt st : String) : List (List Char) → List Char → Nat → Nat →
    List DocSection
  | [], cur, _, pn =>
    if cur ≠ [] then
      match createSection path dt st cur pn with
      | some s => [s]
      | none => []
    else []
  | para :: rest, cur, tok, pn =>
    let pt := estimateTokens para
    if 1200 < pt then
      let fl : List DocSection × Nat :=
        if cur ≠ [] then
          match createSection path dt st cur pn with
          | some s => ([s], pn + 1)
          | none => ([], pn)
        else ([], pn)
      let ep := emitParts path dt st (splitOversizedContent para) fl.2
      fl.1 ++ ep.1 ++ sapGo path dt st rest [] 0 ep.2
    else if 800 < tok + pt ∧ cur ≠ [] then
      match createSection path dt st cur pn with
      | some s => s :: sapGo path dt st rest para pt (pn + 1)
      | none => sapGo path dt st rest para pt pn
    else
      sapGo path dt st rest
        (cur ++ if cur = [] then para else '\n' :: '\n' :: para) (tok + pt) pn

/-- `splitAtParagraphs` from `build.ts`. -/
def splitAtParagraphs (path dt st : String) (content : List Char) :
    List DocSection :=
  sapGo path dt st (parasOf content) [] 0 1

/-- Abstract mdast block node, carrying the markdown source text it spans.
`remark-parse` itself is an external library; the pipeline only inspects
node type, heading depth, heading text and source offsets. -/
inductive MdNode where
  | heading (depth : Nat) (text : String) (src : List Char)
  | block (src : List Char)
deriving DecidableEq, Repr

/-- The source text a node spans. -/
def MdNode.src : MdNode → List Char
  | heading _ _ s => s
  | block s => s

/-- `node.type === "heading" && node.depth === 2`. -/
def MdNode.isH2 : MdNode → Bool
  | heading 2 _ _ => true
  | _ => false

/-- `node.type === "heading" && node.depth === 1`. -/
def MdNode.isH1 : MdNode → Bool
  | heading 1 _ _ => true
  | _ => false

/-- `getHeadingText(node)` (the empty string on non-headings, never used
there). -/
def MdNode.headText : MdNode → String
  | heading _ t _ => t
  | block _ => ""

/-- `astToMarkdown` from `build.ts`: the source slice from the first node's
start to the last node's end.  Sibling markdown block nodes are separated by
a blank line in the source, so the slice is modelled as the node texts
joined by `"\n\n"`. -/
def astToMarkdown (nodes : List MdNode) : List Char :=
  match nodes with
  | [] => []
  | _ => List.intercalate ['\n', '\n'] (nodes.map MdNode.src)

/-- Saving the accumulated section in `parseMarkdown` (both the mid-loop and
the final `// Save last section` copy of the code). -/
def finalizeSection (path dt : String) (curH2 : Option String)
    (curNodes : List MdNode) : List DocSection :=
  match curH2 with
  | none => []
  | some t =>
    if curNodes = [] then []
    else if cleanMdxContent (astToMarkdown curNodes) = [] then []
    else if isTableOfContents t (cleanMdxContent (astToMarkdown curNodes))
      then []
    else if 800 < estimateTokens (cleanMdxContent (astToMarkdown curNodes))
      then splitAtParagraphs path dt t (cleanMdxContent (astToMarkdown curNodes))
    else if 5 ≤ estimateTokens (cleanMdxContent (astToMarkdown curNodes)) then
      [{ docPath := path, docTitle := dt, sectionTitle := t,
         content := cleanMdxContent (astToMarkdown curNodes),
         tokens := estimateTokens (cleanMdxContent (astToMarkdown curNodes)),
         hasCode := hasCodeBlock (cleanMdxContent (astToMarkdown curNodes)) }]
    else []

/-- The main node loop of `parseMarkdown` (arguments: remaining nodes,
`currentH2`, `currentNodes`). -/
def pmGo (path dt : String) : List MdNode → Option String → List MdNode →
    List DocSection
  | [], curH2, curNodes => finalizeSection path dt curH2 curNodes
  | n :: rest, curH2, curNodes =>
    if n.isH2 then
      finalizeSection path dt curH2 curNodes ++
        pmGo path dt rest (some n.headText) []
    else if curH2.isSome then pmGo path dt rest curH2 (curNodes ++ [n])
    else if n.isH1 then pmGo path dt rest curH2 curNodes
    else pmGo path dt rest (some "Introduction") (curNodes ++ [n])

/-- `parseMarkdown` from `build.ts`, over the abstract node stream (the
frontmatter/import stripping feeds into `docTitle` and the node list, which
are taken as inputs here). -/
def parseMarkdownNodes (nodes : List MdNode) (path dt : String) :
    List DocSection :=
  pmGo path dt nodes none []

/-! ### Package builder (`buildPackage`): ingestion deduplication -/

/-- A document handed to `buildPackage`, after frontmatter extraction:
its path, the document title derived from frontmatter/filename, and the
abstract node stream. -/
structure MdFile where
  path : String
  docTitle : String
  nodes : List MdNode
deriving Repr

/-- The dedup loop of `buildPackage`.  The `seenHashes` set of 16-hex-char
MD5 `contentHash` values is modelled as the set of hashed contents
themselves (the hash is used only as an injective set key). -/
def dedupSectionsGo (seen : List (List Char)) : List DocSection →
    List DocSection
  | [] => []
  | s :: rest =>
    if s.content ∈ seen then dedupSectionsGo seen rest
    else s :: dedupSectionsGo (s.content :: seen) rest

/-- `buildPackage` from the package builder, restricted to the section
stream it keeps: parse every file in order, drop any section whose
content hash was already seen in this build. -/
def buildSections (files : List MdFile) : List DocSection :=
  dedupSectionsGo []
    (files.flatMap fun f => parseMarkdownNodes f.nodes f.path f.docTitle)

/-! ### Retrieval assembly (`search.ts`) -/

/-- A ranked FTS match (`ChunkMatch` in `search.ts`).  The BM25-derived
score is modelled as an exact rational. -/
structure ChunkMatch where
  id : Nat
  docPath : String
  docTitle : String
  sectionTitle : String
  content : List Char
  tokens : Nat
  score : ℚ
deriving DecidableEq, Repr

/-- A result snippet (`DocSnippet` in `search.ts`). -/
structure DocSnippet where
  title : String
  content : List Char
  source : String
deriving DecidableEq, Repr

/-- JS `\w` (no unicode flag): `[A-Za-z0-9_]`. -/
def isWordChar (c : Char) : Bool :=
  ('a' ≤ c && c ≤ 'z') || ('A' ≤ c && c ≤ 'Z') || ('0' ≤ c && c ≤ '9') ||
  c = '_'

/-- State machine for `.replace(/\s+/g, " ")`: in state `true` the scanner
is inside a whitespace run already replaced by one space. -/
def collWsGo : Bool → List Char → List Char
  | _, [] => []
  | true, c :: rest =>
    if jsWs c then collWsGo true rest else c :: collWsGo false rest
  | false, c :: rest =>
    if jsWs c then ' ' :: collWsGo true rest else c :: collWsGo false rest

/-- `.replace(/\s+/g, " ")`: collapse every whitespace run to one space. -/
def collapseWs (l : List Char) : List Char := collWsGo false l

/-- `buildQuery` from `search.ts`: trim, replace every character that is not
a word character, whitespace or a double quote by a space, collapse
whitespace runs, trim. -/
def buildQuery (topic : List Char) : List Char :=
  trim (collapseWs
    ((trim topic).map fun c =>
      if isWordChar c || jsWs c || c = '"' then c else ' '))

/-- `searchFts` from `search.ts`.  The SQLite FTS5 query (prepare/MATCH,
ranked best-first, LIMIT 20) is the external index, modelled as the
`oracle` argument; an empty sanitized query short-circuits. -/
def searchFts (oracle : List Char → List ChunkMatch) (topic : List Char) :
    List ChunkMatch :=
  let q := buildQuery topic
  if q = [] then [] else oracle q

/-- `filterByRelevance` from `search.ts`: keep matches scoring at least
`topScore * RELEVANCE_DROP` (`RELEVANCE_DROP = 0.5`). -/
def filterByRelevance (ms : List ChunkMatch) : List ChunkMatch :=
  match ms with
  | [] => []
  | first :: _ =>
    ms.filter fun m => decide (first.score * (1 / 2 : ℚ) ≤ m.score)

/-- The running-total loop of `applyTokenBudget` (`MAX_TOKENS = 2000`). -/
def budgetGo (total : Nat) : List ChunkMatch → List ChunkMatch
  | [] => []
  | m :: rest =>
    if 2000 < total + m.tokens then []
    else m :: budgetGo (total + m.tokens) rest

/-- `applyTokenBudget` from `search.ts`. -/
def applyTokenBudget (ms : List ChunkMatch) : List ChunkMatch :=
  budgetGo 0 ms

/-- Stable ascending insertion by chunk id (JS `sort((a, b) => a.id - b.id)`
is stable). -/
def insertById (c : ChunkMatch) : List ChunkMatch → List ChunkMatch
  | [] => [c]
  | d :: rest => if c.id ≤ d.id then c :: d :: rest else d :: insertById c rest

/-- Stable sort by chunk id. -/
def sortById : List ChunkMatch → List ChunkMatch
  | [] => []
  | c :: rest => insertById c (sortById rest)

/-- The per-document chunk list built by `groupByDocument`: matches with
this `docPath` in encounter order, then sorted by id. -/
def groupOf (ms : List ChunkMatch) (d : String) : List ChunkMatch :=
  sortById (ms.filter fun m => m.docPath == d)

/-- `[...new Set(xs)]`: first-occurrence-order deduplication (the `Set`
membership test carried as the list of already-emitted keys). -/
def setOrderGo (seen : List String) : List String → List String
  | [] => []
  | a :: rest =>
    if a ∈ seen then setOrderGo seen rest
    else a :: setOrderGo (a :: seen) rest

/-- `[...new Set(xs)]`: first-occurrence-order deduplication. -/
def setOrder (l : List String) : List String := setOrderGo [] l

/-- The merge step of `mergeAdjacentChunks`: note the source never updates
`current.id` while merging, so the comparison stays against the id of the
run's first chunk. -/
def combineChunks (a b : ChunkMatch) : ChunkMatch :=
  { a with
    sectionTitle := a.sectionTitle ++ " / " ++ b.sectionTitle
    content := a.content ++ '\n' :: '\n' :: b.content
    tokens := a.tokens + b.tokens }

/-- The loop of `mergeAdjacentChunks` with `current = cur`. -/
def mergeGo (cur : ChunkMatch) : List ChunkMatch → List ChunkMatch
  | [] => [cur]
  | next :: rest =>
    if next.id = cur.id + 1 then mergeGo (combineChunks cur next) rest
    else cur :: mergeGo next rest

/-- `mergeAdjacentChunks` from `search.ts`. -/
def mergeAdjacentChunks (chunks : List ChunkMatch) : List ChunkMatch :=
  match chunks with
  | [] => []
  | [c] => [c]
  | first :: rest => mergeGo first rest

/-- Snippet construction in `assembleResults`. -/
def toSnippet (c : ChunkMatch) : DocSnippet :=
  { title := c.docTitle ++ " > " ++ c.sectionTitle
    content := c.content
    source := c.docPath }

/-- `assembleResults` from `search.ts`: group by document (order of first
appearance), sort each group by id, merge adjacent chunks, emit snippets. -/
def assembleResults (ms : List ChunkMatch) : List DocSnippet :=
  (setOrder (ms.map fun m => m.docPath)).flatMap fun d =>
    (mergeAdjacentChunks (groupOf ms d)).map toSnippet

/-- The dedup loop of `deduplicateResults`: the `(title, content)` MD5 key
is modelled as the pair itself. -/
def dedupResultsGo (seen : List (String × List Char)) : List DocSnippet →
    List DocSnippet
  | [] => []
  | r :: rest =>
    if (r.title, r.content) ∈ seen then dedupResultsGo seen rest
    else r :: dedupResultsGo ((r.title, r.content) :: seen) rest

/-- `deduplicateResults` from `search.ts`. -/
def deduplicateResults (results : List DocSnippet) : List DocSnippet :=
  dedupResultsGo [] results

/-- `search` from `search.ts`, restricted to its `results` field (the
`library`/`version` metadata strings are read from the package database and
irrelevant to the result list). -/
def searchResults (oracle : List Char → List ChunkMatch)
    (topic : List Char) : List DocSnippet :=
  deduplicateResults (assembleResults (applyTokenBudget
    (filterByRelevance (searchFts oracle topic))))

/-! ### Auxiliary definitions used to state the claims -/

/-- Sum of the token counts of a candidate list. -/
def sumTok (ms : List ChunkMatch) : Nat := (ms.map fun m => m.tokens).sum

/-- All whitespace removed; two texts are "equal modulo whitespace
normalization" when their `stripWs` images agree. -/
def stripWs (l : List Char) : List Char := l.filter fun c => !(jsWs c)

/-- Spec-side formulation of §4.9: on a list sorted by ascending chunk id,
merge a chunk into the previous one exactly when its id is the previous
id plus one. -/
def mergePairs : List ChunkMatch → List ChunkMatch
  | [] => []
  | [c] => [c]
  | a :: b :: rest =>
    if b.id = a.id + 1 then combineChunks a b :: mergePairs rest
    else a :: mergePairs (b :: rest)

/-- Spec-side formulation of §4.5: keep each section and drop every later
section with the same content. -/
def dedupSpec : List DocSection → List DocSection
  | [] => []
  | s :: rest => s :: dedupSpec (rest.filter fun x => !(x.content == s.content))
termination_by l => l.length
decreasing_by
  have := List.length_filter_le
    (fun x : DocSection => !(x.content == s.content)) rest
  simp only [List.length_cons]; omega

/-- The raw pieces flushed by the `splitAtParagraphs` loop, before
`createSection` cleans and filters them (used to state when a piece is
silently discarded). -/
def rawGo : List (List Char) → List Char → Nat → List (List Char)
  | [], cur, _ => if cur ≠ [] then [cur] else []
  | para :: rest, cur, tok =>
    let pt := estimateTokens para
    if 1200 < pt then
      (if cur ≠ [] then [cur] else []) ++ splitOversizedContent para ++
        rawGo rest [] 0
    else if 800 < tok + pt ∧ cur ≠ [] then
      cur :: rawGo rest para pt
    else
      rawGo rest (cur ++ if cur = [] then para else '\n' :: '\n' :: para)
        (tok + pt)

/-- The pieces `splitAtParagraphs` flushes for a given content. -/
def rawChunksOf (c : List Char) : List (List Char) :=
  rawGo (parasOf c) [] 0

/-- Sectioning of a chunk stream with `createSection`, threading the part
counter past failures (the functional reading of the `partNum` updates in
`splitAtParagraphs`). -/
def buildFrom (path dt st : String) : List (List Char) → Nat → List DocSection
  | [], _ => []
  | ch :: rest, pn =>
    match createSection path dt st ch pn with
    | some s => s :: buildFrom path dt st rest (pn + 1)
    | none => buildFrom path dt st rest pn

/-- Number of chunks in a stream that survive `createSection` (independent
of the part number, which only affects the title). -/
def succCount (path dt st : String) (chunks : List (List Char)) : Nat :=
  chunks.countP fun ch => (createSection path dt st ch 1).isSome

/-- A flushed piece that survives `createSection`, and whose re-cleaning
only changes whitespace. -/
def goodPiece (ch : List Char) : Prop :=
  cleanMdxContent ch ≠ [] ∧ 5 ≤ estimateTokens (cleanMdxContent ch) ∧
    stripWs (cleanMdxContent ch) = stripWs ch

/-- The texts of the level-2 headings of a node stream. -/
def h2texts (nodes : List MdNode) : List String :=
  nodes.filterMap fun n => if n.isH2 then some n.headText else none

/-- A section title as produced for heading title `st`: either bare or with
a `" (part N)"` suffix, N ≥ 2. -/
def titleShape (st : String) (s : DocSection) : Prop :=
  s.sectionTitle = st ∨
    ∃ k, 1 < k ∧ s.sectionTitle = st ++ " (part " ++ toString k ++ ")"

/-- Concrete candidate used in examples and witnesses. -/
def demoChunk (i tok : Nat) (sc : ℚ) : ChunkMatch :=
  { id := i
    docPath := "docs/a.md"
    docTitle := "Doc"
    sectionTitle := "S" ++ toString i
    content := ("c" ++ toString i).data
    tokens := tok
    score := sc }

/-- Concrete candidate with explicit title/content, same document. -/
def namedChunk (i : Nat) (t : String) (body : String) : ChunkMatch :=
  { id := i
    docPath := "docs/a.md"
    docTitle := "Doc"
    sectionTitle := t
    content := body.data
    tokens := 10
    score := 4 }

/-- A single line of 4801 `a` characters: 1201 estimated tokens, no
newline, no fence, no tag, no link. -/
def bigLine : List Char := List.replicate 4801 'a'

/-- Body text shared verbatim by the three demo documents. -/
def demoBody : String :=
  "This exact same body text appears in three different documents."

/-- One H2 section whose content is `demoBody`. -/
def demoDocNodes : List MdNode :=
  [.heading 2 "Skill for Coding Agents" "## Skill for Coding Agents".data,
   .block demoBody.data]

/-- Three documents with byte-identical section content under different
paths (the scenario of §8's dedup property). -/
def demoFiles : List MdFile :=
  [{ path := "docs/a.md", docTitle := "DocA", nodes := demoDocNodes },
   { path := "docs/b.md", docTitle := "DocB", nodes := demoDocNodes },
   { path := "docs/c.md", docTitle := "DocC", nodes := demoDocNodes }]

/-- The single section kept from `demoFiles`: the first occurrence. -/
def demoKept : DocSection :=
  { docPath := "docs/a.md", docTitle := "DocA",
    sectionTitle := "Skill for Coding Agents", content := demoBody.data,
    tokens := 16, hasCode := false }

/-- Link-free prose long enough to clear the section minimum. -/
def c4body : String := "plain prose content with no links at all, long enough."

/-- First paragraph of the oversized reconstruction example: 2000 plain
characters, 500 estimated tokens. -/
def c3a : List Char := List.replicate 2000 'a'

/-- Second paragraph of the oversized reconstruction example: 1600 plain
characters, 400 estimated tokens. -/
def c3b : List Char := List.replicate 1600 'b'

/-- Oversized content (901 estimated tokens) made of two plain paragraphs
separated by a blank line; both flushed pieces survive `createSection`. -/
def c3demo : List Char := c3a ++ '\n' :: '\n' :: c3b

/-- A 3300-character plain paragraph, 825 estimated tokens. -/
def c3c : List Char := List.replicate 3300 'a'

/-- Oversized content whose second paragraph `"qq"` estimates to 1 token,
below `MIN_CHUNK_TOKENS = 5`: it is flushed but silently discarded by
`createSection`. -/
def c3bad : List Char := c3c ++ '\n' :: '\n' :: ['q', 'q']

/-! ## Claims about the token-budgeted selector and the relevance filter -/

theorem budgetGo_spec (ms : List ChunkMatch) (t : Nat) (ht : t ≤ 2000) :
    ∃ n, n ≤ ms.length ∧ budgetGo t ms = ms.take n ∧
      t + sumTok (ms.take n) ≤ 2000 ∧
      ∀ c, ms.get? n = some c → 2000 < t + sumTok (ms.take n) + c.tokens := by
  induction ms generalizing t with
  | nil =>
    refine ⟨0, by simp, by simp [budgetGo], by simpa [sumTok] using ht, ?_⟩
    intro c hc
    simp at hc
  | cons m rest ih =>
    by_cases h : 2000 < t + m.tokens
    · refine ⟨0, by simp, ?_, by simpa [sumTok] using ht, ?_⟩
      · simp [budgetGo, if_pos h]
      · intro c hc
        simp only [List.take_zero, sumTok, List.map_nil, List.sum_nil]
        have : c = m := by simpa using hc.symm
        subst this
        omega
    · push_neg at h
      obtain ⟨n, hn, heq, hsum, hnext⟩ := ih (t + m.tokens) h
      refine ⟨n + 1, by simpa using hn, ?_, ?_, ?_⟩
      · rw [budgetGo, if_neg (by omega), heq, List.take_succ_cons]
      · simp only [List.take_succ_cons, sumTok, List.map_cons, List.sum_cons]
        simp only [sumTok] at hsum
        omega
      · intro c hc
        simp only [List.get?_cons_succ] at hc
        have := hnext c hc
        simp only [List.take_succ_cons, sumTok, List.map_cons, List.sum_cons]
        simp only [sumTok] at this
        omega

/-- C5: the token-budgeted selector keeps exactly a prefix of the
relevance-filtered candidate list: the running total of the kept prefix stays
within `MAX_TOKENS = 2000`, and whenever a candidate follows the kept prefix,
adding it would exceed the budget (so the walk stopped permanently there,
never selecting any later candidate).  For token counts
`[500, 500, 500, 600]` exactly the first three are selected. -/
theorem claim_C5 :
    (∀ ms : List ChunkMatch, ∃ n, n ≤ ms.length ∧
      applyTokenBudget ms = ms.take n ∧ sumTok (ms.take n) ≤ 2000 ∧
      ∀ c, ms.get? n = some c → 2000 < sumTok (ms.take n) + c.tokens) ∧
    applyTokenBudget
        [demoChunk 1 500 10, demoChunk 2 500 9, demoChunk 3 500 8,
          demoChunk 4 600 7] =
      [demoChunk 1 500 10, demoChunk 2 500 9, demoChunk 3 500 8] := by
  constructor
  · intro ms
    obtain ⟨n, h1, h2, h3, h4⟩ := budgetGo_spec ms 0 (by omega)
    exact ⟨n, h1, h2, by simpa using h3, fun c hc => by simpa using h4 c hc⟩
  · rfl

/-- C6: the relevance filter returns the empty list on no candidates, and
otherwise keeps, in order, exactly the candidates whose score is at least
`candidates[0].score × 0.5`.  For scores `[10, 9, 4, 1]` exactly the first
two survive. -/
theorem claim_C6 :
    (filterByRelevance [] = []) ∧
    (∀ (first : ChunkMatch) (rest : List ChunkMatch),
      filterByRelevance (first :: rest) =
        (first :: rest).filter fun m =>
          decide (first.score * (1 / 2 : ℚ) ≤ m.score)) ∧
    filterByRelevance
        [demoChunk 1 100 10, demoChunk 2 100 9, demoChunk 3 100 4,
          demoChunk 4 100 1] =
      [demoChunk 1 100 10, demoChunk 2 100 9] := by
  refine ⟨rfl, fun first rest => rfl, ?_⟩
  show List.filter _ _ = _
  simp only [List.filter_cons, List.filter_nil]
  norm_num [demoChunk]

/-! ## Section titles: where emitted sections come from -/

theorem createSection_some {path dt st : String} {cur : List Char} {pn : Nat}
    {s : DocSection} (h : createSection path dt st cur pn = some s) :
    s.content = cleanMdxContent cur ∧
    s.tokens = estimateTokens (cleanMdxContent cur) ∧ 5 ≤ s.tokens ∧
    titleShape st s := by
  unfold createSection at h
  by_cases hg : cleanMdxContent cur = [] ∨
      estimateTokens (cleanMdxContent cur) < 5
  · rw [if_pos hg] at h
    exact absurd h (by simp)
  · rw [if_neg hg] at h
    push_neg at hg
    simp only [Option.some.injEq] at h
    subst h
    refine ⟨rfl, rfl, hg.2, ?_⟩
    unfold titleShape
    by_cases hpn : 1 < pn
    · exact Or.inr ⟨pn, hpn, by simp [hpn]⟩
    · exact Or.inl (by simp [hpn])

theorem emitParts_title (path dt st : String) :
    ∀ (chunks : List (List Char)) (pn : Nat),
      ∀ s ∈ (emitParts path dt st chunks pn).1, titleShape st s := by
  intro chunks
  induction chunks with
  | nil => intro pn s hs; simp [emitParts] at hs
  | cons ch rest ih =>
    intro pn s hs
    rw [emitParts] at hs
    revert hs
    cases hc : createSection path dt st ch pn with
    | some s' =>
      intro hs
      simp only [List.mem_cons] at hs
      rcases hs with rfl | hs
      · exact (createSection_some hc).2.2.2
      · exact ih (pn + 1) s hs
    | none => intro hs; exact ih pn s hs

theorem sapGo_title (path dt st : String) :
    ∀ (paras : List (List Char)) (cur : List Char) (tok pn : Nat),
      ∀ s ∈ sapGo path dt st paras cur tok pn, titleShape st s := by
  intro paras
  induction paras with
  | nil =>
    intro cur tok pn s hs
    rw [sapGo] at hs
    revert hs
    split
    · cases hc : createSection path dt st cur pn with
      | some s' =>
        intro hs
        simp only [List.mem_singleton] at hs
        subst hs
        exact (createSection_some hc).2.2.2
      | none => intro hs; simp at hs
    · intro hs; simp at hs
  | cons para rest ih =>
    intro cur tok pn s hs
    rw [sapGo] at hs
    revert hs
    split
    · -- oversized branch
      intro hs
      rcases List.mem_append.1 hs with hs' | hs3
      · rcases List.mem_append.1 hs' with hs1 | hs2
        · revert hs1
          split
          · cases hc : createSection path dt st cur pn with
            | some s' =>
              intro hs1
              simp only [hc, List.mem_singleton] at hs1
              subst hs1
              exact (createSection_some hc).2.2.2
            | none => intro hs1; simp [hc] at hs1
          · intro hs1; simp at hs1
        · exact emitParts_title path dt st _ _ s hs2
      · exact ih [] 0 _ s hs3
    · split
      · -- flush branch
        cases hc : createSection path dt st cur pn with
        | some s' =>
          intro hs
          simp only [hc, List.mem_cons] at hs
          rcases hs with rfl | hs
          · exact (createSection_some hc).2.2.2
          · exact ih para (estimateTokens para) (pn + 1) s hs
        | none =>
          intro hs
          simp only [hc] at hs
          exact ih para (estimateTokens para) pn s hs
      · intro hs
        exact ih _ _ pn s hs

theorem finalizeSection_src (path dt : String) (curH2 : Option String)
    (curNodes : List MdNode) :
    ∀ s ∈ finalizeSection path dt curH2 curNodes,
      ∃ t, curH2 = some t ∧ titleShape t s ∧
        ∃ c, isTableOfContents t c = false := by
  intro s hs
  cases curH2 with
  | none => simp [finalizeSection] at hs
  | some t =>
    refine ⟨t, rfl, ?_⟩
    simp only [finalizeSection] at hs
    by_cases h1 : curNodes = []
    · rw [if_pos h1] at hs; simp at hs
    rw [if_neg h1] at hs
    by_cases h2 : cleanMdxContent (astToMarkdown curNodes) = []
    · rw [if_pos h2] at hs; simp at hs
    rw [if_neg h2] at hs
    by_cases h3 :
        isTableOfContents t (cleanMdxContent (astToMarkdown curNodes)) = true
    · rw [if_pos h3] at hs; simp at hs
    rw [if_neg h3] at hs
    have htoc : ∃ c, isTableOfContents t c = false :=
      ⟨_, by simpa using h3⟩
    by_cases h4 : 800 < estimateTokens (cleanMdxContent (astToMarkdown curNodes))
    · rw [if_pos h4] at hs
      exact ⟨sapGo_title path dt t _ _ _ _ s hs, htoc⟩
    rw [if_neg h4] at hs
    by_cases h5 : 5 ≤ estimateTokens (cleanMdxContent (astToMarkdown curNodes))
    · rw [if_pos h5] at hs
      simp only [List.mem_singleton] at hs
      subst hs
      exact ⟨Or.inl rfl, htoc⟩
    · rw [if_neg h5] at hs
      simp at hs

theorem pmGo_titles (path dt : String) :
    ∀ (nodes : List MdNode) (curH2 : Option String) (curNodes : List MdNode),
      ∀ s ∈ pmGo path dt nodes curH2 curNodes,
        ∃ t, ((curH2 = some t ∧ ∃ c, isTableOfContents t c = false) ∨
          t = "Introduction" ∨ t ∈ h2texts nodes) ∧ titleShape t s ∧
          ∃ c, isTableOfContents t c = false := by
  intro nodes
  induction nodes with
  | nil =>
    intro curH2 curNodes s hs
    rw [pmGo] at hs
    obtain ⟨t, ht, hshape, htoc⟩ := finalizeSection_src path dt _ _ s hs
    exact ⟨t, Or.inl ⟨ht, htoc⟩, hshape, htoc⟩
  | cons n rest ih =>
    intro curH2 curNodes s hs
    rw [pmGo] at hs
    revert hs
    split
    case isTrue h2 =>
      intro hs
      rcases List.mem_append.1 hs with hs | hs
      · obtain ⟨t, ht, hshape, htoc⟩ := finalizeSection_src path dt _ _ s hs
        exact ⟨t, Or.inl ⟨ht, htoc⟩, hshape, htoc⟩
      · obtain ⟨t, ht, hshape, htoc⟩ := ih (some n.headText) [] s hs
        refine ⟨t, ?_, hshape, htoc⟩
        rcases ht with ⟨hteq, _⟩ | ht | ht
        · right; right
          simp only [Option.some.injEq] at hteq
          subst hteq
          simp [h2texts, List.filterMap_cons, h2]
        · exact Or.inr (Or.inl ht)
        · right; right
          simp [h2texts, List.filterMap_cons, h2]
          exact Or.inr (by simpa [h2texts] using ht)
    case isFalse h2 =>
      split
      · intro hs
        obtain ⟨t, ht, hshape, htoc⟩ := ih curH2 (curNodes ++ [n]) s hs
        refine ⟨t, ?_, hshape, htoc⟩
        rcases ht with ht | ht | ht
        · exact Or.inl ht
        · exact Or.inr (Or.inl ht)
        · right; right
          simpa [h2texts, List.filterMap_cons, h2] using ht
      · split
        · intro hs
          obtain ⟨t, ht, hshape, htoc⟩ := ih curH2 curNodes s hs
          refine ⟨t, ?_, hshape, htoc⟩
          rcases ht with ht | ht | ht
          · exact Or.inl ht
          · exact Or.inr (Or.inl ht)
          · right; right
            simpa [h2texts, List.filterMap_cons, h2] using ht
        · intro hs
          obtain ⟨t, ht, hshape, htoc⟩ := ih (some "Introduction") _ s hs
          refine ⟨t, ?_, hshape, htoc⟩
          rcases ht with ⟨hteq, _⟩ | ht | ht
          · right; left
            simpa using hteq.symm
          · exact Or.inr (Or.inl ht)
          · right; right
            simpa [h2texts, List.filterMap_cons, h2] using ht

/-! ## Claims about table-of-contents detection -/

theorem isTOC_false_no_contains {t : String} {c : List Char}
    (h : isTableOfContents t c = false) :
    containsSub "table of contents".data (lowerAscii t) = false := by
  by_contra hc
  apply absurd h
  simp only [isTableOfContents]
  rw [if_pos]
  · simp
  · simp only [Bool.or_eq_true]
    exact Or.inl (Or.inl (Or.inl (by simpa using hc)))

/-- C4 (amended): a cleaned H2 section is discarded as a table of contents
exactly when its lowercased heading *contains* "table of contents" as a
substring (the source uses `includes`, not equality), or equals one of
"toc"/"contents"/"index", or markdown link syntax accounts for more than 50%
of the content length; and every section emitted by the pipeline stems from
a heading (bare or `" (part N)"`-suffixed) whose lowercase form does not
contain "table of contents" — so a heading titled "Table of Contents" in any
case never produces an emitted Section. -/
theorem claim_C4 :
    (∀ (t : String) (c : List Char),
      isTableOfContents t c = true ↔
        (containsSub "table of contents".data (lowerAscii t) = true ∨
         lowerAscii t = "toc".data ∨ lowerAscii t = "contents".data ∨
         lowerAscii t = "index".data ∨
         (0 < c.length ∧ c.length < 2 * linkLen c))) ∧
    (∀ (nodes : List MdNode) (path dt : String),
      ∀ s ∈ parseMarkdownNodes nodes path dt,
        ∃ t, titleShape t s ∧
          containsSub "table of contents".data (lowerAscii t) = false) := by
  constructor
  · intro t c
    unfold isTableOfContents
    by_cases h : (containsSub "table of contents".data (lowerAscii t) ||
        lowerAscii t == "toc".data || lowerAscii t == "contents".data ||
        lowerAscii t == "index".data) = true
    · rw [if_pos h]
      simp only [Bool.or_eq_true, beq_iff_eq] at h
      constructor
      · intro _
        tauto
      · intro _
        rfl
    · rw [if_neg h]
      simp only [Bool.or_eq_true, beq_iff_eq, not_or] at h
      obtain ⟨⟨⟨hA, hB⟩, hC⟩, hD⟩ := h
      constructor
      · intro hb
        simp only [Bool.and_eq_true, decide_eq_true_eq] at hb
        exact Or.inr (Or.inr (Or.inr (Or.inr hb)))
      · intro hd
        rcases hd with h1 | h1 | h1 | h1 | h1
        · exact absurd h1 hA
        · exact absurd h1 hB
        · exact absurd h1 hC
        · exact absurd h1 hD
        · simp only [Bool.and_eq_true, decide_eq_true_eq]
          exact h1
  · intro nodes path dt s hs
    obtain ⟨t, _, hshape, c, htoc⟩ := pmGo_titles path dt nodes none [] s hs
    exact ⟨t, hshape, isTOC_false_no_contains htoc⟩

theorem claim_C4_witness :
    isTableOfContents "Contents" "plain".data = true :=
  (claim_C4.1 "Contents" "plain".data).mpr
    (Or.inr (Or.inr (Or.inl (by decide))))

/-- C4 counterexample: the heading "Beyond the Table of Contents" is not
case-insensitively *equal* to any of the four listed titles, and its content
has no links at all and enough tokens, yet the section is discarded (the
source tests substring containment, not equality) — the claim as stated
predicts this section is kept. -/
theorem claim_C4_counterexample :
    parseMarkdownNodes
        [.heading 2 "Beyond the Table of Contents" "## h".data,
         .block c4body.data] "p" "D" = [] ∧
    (lowerAscii "Beyond the Table of Contents" ≠ "table of contents".data ∧
     lowerAscii "Beyond the Table of Contents" ≠ "toc".data ∧
     lowerAscii "Beyond the Table of Contents" ≠ "contents".data ∧
     lowerAscii "Beyond the Table of Contents" ≠ "index".data) ∧
    2 * linkLen c4body.data ≤ c4body.data.length ∧
    5 ≤ estimateTokens (cleanMdxContent c4body.data) :=
  ⟨by decide, by decide, by decide, by decide⟩

/-! ## Size bounds: arithmetic and cleaner lemmas -/

theorem estimateTokens_mono {a b : List Char} (h : a.length ≤ b.length) :
    estimateTokens a ≤ estimateTokens b := by
  unfold estimateTokens
  omega

theorem estimateTokens_append (a b : List Char) :
    estimateTokens (a ++ b) ≤ estimateTokens a + estimateTokens b := by
  unfold estimateTokens
  rw [List.length_append]
  omega

theorem mem_of_mem_dropWhile {p : Char → Bool} {l : List Char} {c : Char}
    (h : c ∈ l.dropWhile p) : c ∈ l := by
  induction l with
  | nil => simpa [List.dropWhile] using h
  | cons a rest ih =>
    rw [List.dropWhile_cons] at h
    by_cases hp : p a
    · rw [if_pos hp] at h
      exact List.mem_cons_of_mem _ (ih h)
    · rw [if_neg hp] at h
      exact h

theorem trim_subset {l : List Char} {c : Char} (h : c ∈ trim l) : c ∈ l := by
  unfold trim at h
  rw [List.mem_reverse] at h
  have h1 := mem_of_mem_dropWhile h
  rw [List.mem_reverse] at h1
  exact mem_of_mem_dropWhile h1

theorem tryTagBody_suffix {l r : List Char} (h : tryTagBody l = some r) :
    r <:+ l := by
  cases l with
  | nil => simp [tryTagBody] at h
  | cons u rest =>
    rw [tryTagBody] at h
    split at h
    · have hs1 : (rest.dropWhile isAsciiAlpha).dropWhile jsWs <:+ rest := by
        refine List.IsSuffix.trans ?_ ⟨rest.takeWhile isAsciiAlpha,
          List.takeWhile_append_dropWhile _ _⟩
        exact ⟨(rest.dropWhile isAsciiAlpha).takeWhile jsWs,
          List.takeWhile_append_dropWhile _ _⟩
      split at h
      case h_1 r' heq =>
        simp only [Option.some.injEq] at h
        subst h
        rw [heq] at hs1
        refine List.IsSuffix.trans ?_ (hs1.trans ⟨[u], rfl⟩)
        exact ⟨['/', '>'], rfl⟩
      case h_2 r' heq =>
        simp only [Option.some.injEq] at h
        subst h
        rw [heq] at hs1
        refine List.IsSuffix.trans ?_ (hs1.trans ⟨[u], rfl⟩)
        exact ⟨['>'], rfl⟩
      case h_3 => exact absurd h (by simp)
    · simp at h

theorem tryTag_suffix {l r : List Char} (h : tryTag l = some r) : r <:+ l := by
  unfold tryTag at h
  split at h
  · refine (tryTagBody_suffix h).trans ?_
    cases l with
    | nil => simp
    | cons a rest => exact ⟨[a], rfl⟩
  · exact tryTagBody_suffix h

theorem removeTagsF_length (fuel : Nat) :
    ∀ l : List Char, (removeTagsF fuel l).length ≤ l.length := by
  induction fuel with
  | zero => intro l; cases l <;> simp [removeTagsF]
  | succ fuel ih =>
    intro l
    cases l with
    | nil => simp [removeTagsF]
    | cons c rest =>
      rw [removeTagsF]
      by_cases hc : c = '<'
      · rw [if_pos hc]
        cases ht : tryTag rest with
        | some r =>
          have h1 := tryTag_length ht
          have h2 := ih r
          simp only [List.length_cons]
          omega
        | none =>
          have h2 := ih rest
          simp only [List.length_cons]
          omega
      · rw [if_neg hc]
        have := ih rest
        simp only [List.length_cons]
        omega

theorem removeTagsF_subset (fuel : Nat) :
    ∀ (l : List Char) (c : Char), c ∈ removeTagsF fuel l → c ∈ l := by
  induction fuel with
  | zero =>
    intro l c h
    cases l <;> simpa [removeTagsF] using h
  | succ fuel ih =>
    intro l c h
    cases l with
    | nil => simpa [removeTagsF] using h
    | cons a rest =>
      rw [removeTagsF] at h
      by_cases hc : a = '<'
      · rw [if_pos hc] at h
        revert h
        cases ht : tryTag rest with
        | some r =>
          intro h
          exact List.mem_cons_of_mem _ ((tryTag_suffix ht).subset (ih r c h))
        | none =>
          intro h
          rcases List.mem_cons.1 h with rfl | h
          · simp [hc]
          · exact List.mem_cons_of_mem _ (ih rest c h)
      · rw [if_neg hc] at h
        rcases List.mem_cons.1 h with rfl | h
        · exact List.mem_cons_self _ _
        · exact List.mem_cons_of_mem _ (ih rest c h)

theorem countNl_head {l : List Char} (h : 1 ≤ countNl l) :
    ∃ r, l = '\n' :: r := by
  cases l with
  | nil => simp [countNl] at h
  | cons c rest =>
    by_cases hc : c = '\n'
    · exact ⟨rest, by rw [hc]⟩
    · rw [countNl, if_neg hc] at h
      omega

theorem collNlGo_length_aux :
    ∀ (n : Nat) (l : List Char), l.length ≤ n →
      ∀ b, (collNlGo b l).length ≤ l.length := by
  intro n
  induction n with
  | zero =>
    intro l hl b
    rw [List.length_eq_zero.mp (Nat.le_zero.mp hl)]
    cases b <;> simp [collNlGo]
  | succ n ih =>
    intro l hl b
    cases l with
    | nil => cases b <;> simp [collNlGo]
    | cons c rest =>
      simp only [List.length_cons] at hl
      have hrest : rest.length ≤ n := by omega
      cases b with
      | true =>
        rw [collNlGo]
        by_cases hc : c = '\n'
        · rw [if_pos hc]
          have := ih rest hrest true
          simp only [List.length_cons]
          omega
        · rw [if_neg hc]
          have := ih rest hrest false
          simp only [List.length_cons]
          omega
      | false =>
        rw [collNlGo]
        by_cases hc : c = '\n'
        · rw [if_pos hc]
          by_cases hr : 2 ≤ countNl rest
          · rw [if_pos hr]
            obtain ⟨r, rfl⟩ := countNl_head (l := rest) (by omega)
            have hskip : collNlGo true ('\n' :: r) = collNlGo true r := by
              rw [collNlGo, if_pos rfl]
            rw [hskip]
            have hr' : r.length ≤ n := by
              simp only [List.length_cons] at hrest
              omega
            have := ih r hr' true
            simp only [List.length_cons]
            omega
          · rw [if_neg hr]
            have := ih rest hrest false
            simp only [List.length_cons]
            omega
        · rw [if_neg hc]
          have := ih rest hrest false
          simp only [List.length_cons]
          omega

theorem collNlGo_length (b : Bool) (l : List Char) :
    (collNlGo b l).length ≤ l.length :=
  collNlGo_length_aux l.length l le_rfl b

theorem collNlGo_subset_aux :
    ∀ (n : Nat) (l : List Char), l.length ≤ n →
      ∀ (b : Bool) (c : Char), c ∈ collNlGo b l → c ∈ l := by
  intro n
  induction n with
  | zero =>
    intro l hl b c h
    rw [List.length_eq_zero.mp (Nat.le_zero.mp hl)] at h ⊢
    cases b <;> simp [collNlGo] at h
  | succ n ih =>
    intro l hl b c h
    cases l with
    | nil => cases b <;> simp [collNlGo] at h
    | cons a rest =>
      simp only [List.length_cons] at hl
      have hrest : rest.length ≤ n := by omega
      cases b with
      | true =>
        rw [collNlGo] at h
        by_cases ha : a = '\n'
        · rw [if_pos ha] at h
          exact List.mem_cons_of_mem _ (ih rest hrest true c h)
        · rw [if_neg ha] at h
          rcases List.mem_cons.1 h with rfl | h
          · exact List.mem_cons_self _ _
          · exact List.mem_cons_of_mem _ (ih rest hrest false c h)
      | false =>
        rw [collNlGo] at h
        by_cases ha : a = '\n'
        · rw [if_pos ha] at h
          by_cases hr : 2 ≤ countNl rest
          · rw [if_pos hr] at h
            obtain ⟨r, rfl⟩ := countNl_head (l := rest) (by omega)
            rcases List.mem_cons.1 h with rfl | h
            · simp [ha]
            rcases List.mem_cons.1 h with rfl | h
            · simp [ha]
            · have hskip : collNlGo true ('\n' :: r) = collNlGo true r := by
                rw [collNlGo, if_pos rfl]
              rw [hskip] at h
              have hr' : r.length ≤ n := by
                simp only [List.length_cons] at hrest
                omega
              have := ih r hr' true c h
              exact List.mem_cons_of_mem _ (List.mem_cons_of_mem _ this)
          · rw [if_neg hr] at h
            rcases List.mem_cons.1 h with rfl | h
            · exact List.mem_cons_self _ _
            · exact List.mem_cons_of_mem _ (ih rest hrest false c h)
        · rw [if_neg ha] at h
          rcases List.mem_cons.1 h with rfl | h
          · exact List.mem_cons_self _ _
          · exact List.mem_cons_of_mem _ (ih rest hrest false c h)

theorem collNlGo_subset (b : Bool) (l : List Char) (c : Char)
    (h : c ∈ collNlGo b l) : c ∈ l :=
  collNlGo_subset_aux l.length l le_rfl b c h

/-- The cleaner never grows the text. -/
theorem cleanMdx_length_le (l : List Char) :
    (cleanMdxContent l).length ≤ l.length := by
  unfold cleanMdxContent
  calc (trim (collapseNl (removeTags l))).length
      ≤ (collapseNl (removeTags l)).length := trim_length_le _
    _ ≤ (removeTags l).length := collNlGo_length false _
    _ ≤ l.length := removeTagsF_length _ _

/-- Every character the cleaner emits was present in the input. -/
theorem cleanMdx_subset {l : List Char} {c : Char}
    (h : c ∈ cleanMdxContent l) : c ∈ l :=
  removeTagsF_subset _ _ _ (collNlGo_subset false _ _ (trim_subset h))

theorem mem_consHead {c : Char} {L : List (List Char)} {p : List Char}
    (h : p ∈ consHead c L) :
    (L = [] ∧ p = [c]) ∨ ∃ h' t, L = h' :: t ∧ (p = c :: h' ∨ p ∈ t) := by
  cases L with
  | nil =>
    simp only [consHead, List.mem_singleton] at h
    exact Or.inl ⟨rfl, h⟩
  | cons h' t =>
    simp only [consHead, List.mem_cons] at h
    exact Or.inr ⟨h', t, rfl, h⟩

theorem linesOf_no_nl :
    ∀ (l : List Char) (p : List Char), p ∈ linesOf l → '\n' ∉ p := by
  intro l
  induction l with
  | nil =>
    intro p hp
    simp only [linesOf, List.mem_singleton] at hp
    simp [hp]
  | cons c rest ih =>
    intro p hp
    rw [linesOf] at hp
    by_cases hc : c = '\n'
    · rw [if_pos hc] at hp
      rcases List.mem_cons.1 hp with rfl | hp
      · simp
      · exact ih p hp
    · rw [if_neg hc] at hp
      rcases mem_consHead hp with ⟨_, rfl⟩ | ⟨h', t, heq, hp⟩
      · simpa using fun h => hc h.symm
      · rcases hp with rfl | hp
        · intro hmem
          rcases List.mem_cons.1 hmem with heq' | hmem
          · exact hc heq'.symm
          · exact ih h' (heq ▸ List.mem_cons_self _ _) hmem
        · exact ih p (heq ▸ List.mem_cons_of_mem _ hp)

theorem est_cons_nl (line : List Char) :
    estimateTokens ('\n' :: line) = estimateTokens (line ++ ['\n']) := by
  unfold estimateTokens
  simp

theorem trim_bound_carry {cur : List Char} {tok : Nat}
    (hest : estimateTokens cur ≤ tok) (hd : tok ≤ 1200 ∨ '\n' ∉ cur) :
    estimateTokens (trim cur) ≤ 1200 ∨ '\n' ∉ trim cur := by
  rcases hd with hd | hd
  · exact Or.inl (le_trans (le_trans
      (estimateTokens_mono (trim_length_le cur)) hest) hd)
  · exact Or.inr fun hmem => hd (trim_subset hmem)

theorem lineGo_bound :
    ∀ (lines : List (List Char)) (cur : List Char) (tok : Nat),
      (∀ line ∈ lines, '\n' ∉ line) →
      estimateTokens cur ≤ tok →
      (tok ≤ 1200 ∨ '\n' ∉ cur) →
      ∀ ch ∈ lineGo lines cur tok,
        estimateTokens ch ≤ 1200 ∨ '\n' ∉ ch := by
  intro lines
  induction lines with
  | nil =>
    intro cur tok _ hest hd ch hch
    rw [lineGo] at hch
    split at hch
    · simp at hch
    · simp only [List.mem_singleton] at hch
      subst hch
      exact trim_bound_carry hest hd
  | cons line rest ih =>
    intro cur tok hnl hest hd ch hch
    rw [lineGo] at hch
    split at hch
    case isTrue hcond =>
      rcases List.mem_cons.1 hch with rfl | hch
      · exact trim_bound_carry hest hd
      · refine ih line (estimateTokens (line ++ ['\n'])) ?_ ?_ ?_ ch hch
        · exact fun x hx => hnl x (List.mem_cons_of_mem _ hx)
        · exact estimateTokens_mono (by simp)
        · exact Or.inr (hnl line (List.mem_cons_self _ _))
    case isFalse hcond =>
      rw [not_and_or] at hcond
      refine ih _ _ (fun x hx => hnl x (List.mem_cons_of_mem _ hx)) ?_ ?_ ch
        hch
      · by_cases hc : cur = []
        · rw [if_pos hc, hc, List.nil_append]
          have := estimateTokens_mono (a := line) (b := line ++ ['\n'])
            (by simp)
          omega
        · rw [if_neg hc]
          calc estimateTokens (cur ++ '\n' :: line)
              ≤ estimateTokens cur + estimateTokens ('\n' :: line) :=
                estimateTokens_append _ _
            _ = estimateTokens cur + estimateTokens (line ++ ['\n']) := by
                rw [est_cons_nl]
            _ ≤ tok + estimateTokens (line ++ ['\n']) := by omega
      · by_cases hc : cur = []
        · rw [if_pos hc, hc, List.nil_append]
          exact Or.inr (hnl line (List.mem_cons_self _ _))
        · rcases hcond with hcond | hcond
          · exact Or.inl (by omega)
          · exact absurd hc (by simpa using hcond)

theorem lineChunks_bound (l : List Char) :
    ∀ ch ∈ lineChunks l, estimateTokens ch ≤ 1200 ∨ '\n' ∉ ch := by
  intro ch hch
  refine lineGo_bound (linesOf l) [] 0 (linesOf_no_nl l) ?_ ?_ ch hch
  · simp [estimateTokens]
  · exact Or.inl (by omega)

theorem socF_bound :
    ∀ (fuel : Nat) (l : List Char), l.length ≤ fuel →
      ∀ ch ∈ socF fuel l, estimateTokens ch ≤ 1200 ∨ '\n' ∉ ch := by
  intro fuel
  induction fuel with
  | zero =>
    intro l hl ch hch
    have hnil := List.length_eq_zero.mp (Nat.le_zero.mp hl)
    subst hnil
    simp only [socF, List.mem_singleton] at hch
    subst hch
    exact Or.inl (by simp [estimateTokens])
  | succ fuel ih =>
    intro l hl ch hch
    rw [socF] at hch
    split at hch
    case isTrue hle =>
      simp only [List.mem_singleton] at hch
      subst hch
      exact Or.inl hle
    case isFalse hle =>
      split at hch
      case isTrue hparts =>
        obtain ⟨p, hp, hchp⟩ := List.mem_flatMap.1 hch
        have hplen : p.length ≤ fuel := by
          have := fenceParts_lt hparts hp
          omega
        exact ih p hplen ch hchp
      case isFalse hparts =>
        exact lineChunks_bound l ch hch

theorem soc_bound (l : List Char) :
    ∀ ch ∈ splitOversizedContent l,
      estimateTokens ch ≤ 1200 ∨ '\n' ∉ ch :=
  socF_bound l.length l le_rfl

theorem consHead_ne_nil (c : Char) (L : List (List Char)) :
    consHead c L ≠ [] := by
  cases L <;> simp [consHead]

theorem parasGo_ne_nil : ∀ (l : List Char) (b : Bool), parasGo b l ≠ [] := by
  intro l
  induction l with
  | nil => intro b; cases b <;> simp [parasGo]
  | cons c rest ih =>
    intro b
    cases b with
    | true =>
      rw [parasGo]
      split
      · exact ih true
      · exact consHead_ne_nil _ _
    | false =>
      rw [parasGo]
      split
      · simp
      · exact consHead_ne_nil _ _

theorem getLast?_cons_ne {c : Char} {rest : List Char} (hne : rest ≠ []) :
    (c :: rest).getLast? = rest.getLast? := by
  cases rest with
  | nil => exact absurd rfl hne
  | cons d r => simp [List.getLast?_cons_cons]

theorem parasGo_nonempty_aux :
    ∀ (n : Nat) (l : List Char), l.length ≤ n → l.getLast? ≠ some '\n' →
      (∀ p ∈ (parasGo false l).tail, p ≠ []) ∧
      (l ≠ [] → ∀ p ∈ parasGo true l, p ≠ []) ∧
      (l.head? ≠ some '\n' → l ≠ [] → ∀ p ∈ parasGo false l, p ≠ []) := by
  intro n
  induction n with
  | zero =>
    intro l hl _
    have hnil := List.length_eq_zero.mp (Nat.le_zero.mp hl)
    subst hnil
    refine ⟨?_, by simp, by simp⟩
    intro p hp
    simp [parasGo] at hp
  | succ n ih =>
    intro l hl hlast
    cases l with
    | nil =>
      refine ⟨?_, by simp, by simp⟩
      intro p hp
      simp [parasGo] at hp
    | cons c rest =>
      simp only [List.length_cons] at hl
      have hrest : rest.length ≤ n := by omega
      have hrlast : rest ≠ [] → rest.getLast? ≠ some '\n' := by
        intro hne
        rw [← getLast?_cons_ne (c := c) hne]
        exact hlast
      have hConsPieces : ∀ p ∈ consHead c (parasGo false rest), p ≠ [] := by
        intro p hp
        rcases mem_consHead hp with ⟨_, rfl⟩ | ⟨h', t, heq, hq⟩
        · simp
        · rcases hq with rfl | hq
          · simp
          · by_cases hre : rest = []
            · subst hre
              have hpe : parasGo false [] = [[]] := by simp [parasGo]
              rw [hpe] at heq
              injection heq with h1 h2
              rw [← h2] at hq
              simp at hq
            · have htail := (ih rest hrest (hrlast hre)).1
              rw [heq] at htail
              exact htail p hq
      refine ⟨?_, ?_, ?_⟩
      · -- tail pieces of parasGo false (c :: rest)
        rw [parasGo]
        split
        case isTrue hg =>
          simp only [List.tail_cons]
          have hrne : rest ≠ [] := by
            intro hre
            rw [hre] at hg
            simp at hg
          exact (ih rest hrest (hrlast hrne)).2.1 hrne
        case isFalse hg =>
          intro p hp
          have hlen := parasGo_ne_nil rest false
          rcases hL : parasGo false rest with _ | ⟨h', t⟩
          · exact absurd hL hlen
          · rw [hL] at hp
            simp only [consHead, List.tail_cons] at hp
            by_cases hre : rest = []
            · subst hre
              have hpe : parasGo false [] = [[]] := by simp [parasGo]
              rw [hpe] at hL
              injection hL with h1 h2
              rw [← h2] at hp
              simp at hp
            · have htail := (ih rest hrest (hrlast hre)).1
              rw [hL] at htail
              exact htail p hp
      · -- pieces of parasGo true (c :: rest)
        intro _
        rw [parasGo]
        split
        case isTrue hg =>
          have hrne : rest ≠ [] := by
            intro hre
            subst hre
            subst hg
            simp at hlast
          exact (ih rest hrest (hrlast hrne)).2.1 hrne
        case isFalse hg =>
          exact hConsPieces
      · -- pieces of parasGo false (c :: rest), head not newline
        intro hhead _
        rw [parasGo]
        split
        case isTrue hg =>
          exact absurd (by simpa using hg.1) (by simpa using hhead)
        case isFalse hg =>
          exact hConsPieces

theorem parasOf_nonempty {l : List Char} (hne : l ≠ [])
    (hhead : l.head? ≠ some '\n') (hlast : l.getLast? ≠ some '\n') :
    ∀ p ∈ parasOf l, p ≠ [] :=
  (parasGo_nonempty_aux l.length l le_rfl hlast).2.2 hhead hne

theorem dropWhile_head_not {p : Char → Bool} :
    ∀ {l : List Char} {c : Char}, (l.dropWhile p).head? = some c →
      p c = false := by
  intro l
  induction l with
  | nil => intro c h; simp [List.dropWhile] at h
  | cons a rest ih =>
    intro c h
    rw [List.dropWhile_cons] at h
    by_cases hp : p a
    · rw [if_pos hp] at h
      exact ih h
    · rw [if_neg hp] at h
      simp only [List.head?_cons, Option.some.injEq] at h
      subst h
      simpa using hp

theorem trim_getLast_not_ws {l : List Char} {c : Char}
    (h : (trim l).getLast? = some c) : jsWs c = false := by
  unfold trim at h
  rw [List.getLast?_reverse] at h
  exact dropWhile_head_not h

theorem trim_head_not_ws {l : List Char} {c : Char}
    (h : (trim l).head? = some c) : jsWs c = false := by
  have hu : ∃ u, l.dropWhile jsWs = trim l ++ u := by
    obtain ⟨u, hu⟩ : (((l.dropWhile jsWs).reverse.dropWhile jsWs) <:+
        (l.dropWhile jsWs).reverse) :=
      ⟨(l.dropWhile jsWs).reverse.takeWhile jsWs,
        List.takeWhile_append_dropWhile _ _⟩
    refine ⟨u.reverse, ?_⟩
    have := congrArg List.reverse hu
    simp only [List.reverse_append, List.reverse_reverse] at this
    rw [← this]
    rfl
  obtain ⟨u, hu⟩ := hu
  cases htl : trim l with
  | nil => rw [htl] at h; simp at h
  | cons a x =>
    rw [htl] at h
    simp only [List.head?_cons, Option.some.injEq] at h
    have hhead : (l.dropWhile jsWs).head? = some a := by
      rw [hu, htl]
      simp
    exact dropWhile_head_not (h ▸ hhead)

theorem cleanMdx_head_not_ws {l : List Char} {c : Char}
    (h : (cleanMdxContent l).head? = some c) : jsWs c = false :=
  trim_head_not_ws h

theorem cleanMdx_getLast_not_ws {l : List Char} {c : Char}
    (h : (cleanMdxContent l).getLast? = some c) : jsWs c = false :=
  trim_getLast_not_ws h

/-- The cleaner's output never starts or ends with a newline, so every
paragraph piece of it is nonempty. -/
theorem cleanMdx_paras_nonempty {x : List Char}
    (hne : cleanMdxContent x ≠ []) :
    ∀ p ∈ parasOf (cleanMdxContent x), p ≠ [] := by
  refine parasOf_nonempty hne ?_ ?_
  · intro hh
    have := cleanMdx_head_not_ws hh
    simp [jsWs] at this
  · intro hh
    have := cleanMdx_getLast_not_ws hh
    simp [jsWs] at this

/-! ## The size bound through `splitAtParagraphs` and `parseMarkdown` -/

theorem createSection_bound {path dt st : String} {cur : List Char}
    {pn : Nat} {s : DocSection}
    (hch : estimateTokens cur ≤ 1200 ∨ '\n' ∉ cur)
    (h : createSection path dt st cur pn = some s) :
    5 ≤ s.tokens ∧ (s.tokens ≤ 1200 ∨ '\n' ∉ s.content) := by
  obtain ⟨hc, ht, h5, -⟩ := createSection_some h
  refine ⟨h5, ?_⟩
  rcases hch with hch | hch
  · refine Or.inl ?_
    rw [ht]
    exact le_trans (estimateTokens_mono (cleanMdx_length_le cur)) hch
  · refine Or.inr ?_
    rw [hc]
    exact fun hmem => hch (cleanMdx_subset hmem)

theorem emitParts_bound {path dt st : String} :
    ∀ (chunks : List (List Char)) (pn : Nat),
      (∀ ch ∈ chunks, estimateTokens ch ≤ 1200 ∨ '\n' ∉ ch) →
      ∀ s ∈ (emitParts path dt st chunks pn).1,
        5 ≤ s.tokens ∧ (s.tokens ≤ 1200 ∨ '\n' ∉ s.content) := by
  intro chunks
  induction chunks with
  | nil => intro pn _ s hs; simp [emitParts] at hs
  | cons ch rest ih =>
    intro pn hcond s hs
    rw [emitParts] at hs
    revert hs
    cases hc : createSection path dt st ch pn with
    | some s' =>
      intro hs
      simp only [List.mem_cons] at hs
      rcases hs with rfl | hs
      · exact createSection_bound (hcond ch (List.mem_cons_self _ _)) hc
      · exact ih (pn + 1)
          (fun x hx => hcond x (List.mem_cons_of_mem _ hx)) s hs
    | none =>
      intro hs
      exact ih pn (fun x hx => hcond x (List.mem_cons_of_mem _ hx)) s hs

theorem est_le_four_mul (p : List Char) :
    p.length ≤ 4 * estimateTokens p := by
  unfold estimateTokens
  omega

theorem sapGo_bound {path dt st : String} :
    ∀ (paras : List (List Char)) (cur : List Char) (tok pn : Nat),
      (∀ p ∈ paras, p ≠ []) →
      (cur = [] ∨ (cur.length + 2 ≤ 6 * tok ∧ estimateTokens cur ≤ 1200)) →
      ∀ s ∈ sapGo path dt st paras cur tok pn,
        5 ≤ s.tokens ∧ (s.tokens ≤ 1200 ∨ '\n' ∉ s.content) := by
  intro paras
  induction paras with
  | nil =>
    intro cur tok pn _ hinv s hs
    rw [sapGo] at hs
    revert hs
    split
    case isTrue hcur =>
      cases hc : createSection path dt st cur pn with
      | some s' =>
        intro hs
        simp only [List.mem_singleton] at hs
        subst hs
        rcases hinv with rfl | ⟨-, hest⟩
        · exact absurd rfl hcur
        · exact createSection_bound (Or.inl hest) hc
      | none => intro hs; simp at hs
    · intro hs; simp at hs
  | cons para rest ih =>
    intro cur tok pn hpar hinv s hs
    have hpne : para ≠ [] := hpar para (List.mem_cons_self _ _)
    have hppos : 1 ≤ estimateTokens para := by
      have : 1 ≤ para.length := List.length_pos.mpr hpne
      unfold estimateTokens
      omega
    have hrpar : ∀ p ∈ rest, p ≠ [] :=
      fun p hp => hpar p (List.mem_cons_of_mem _ hp)
    rw [sapGo] at hs
    revert hs
    split
    case isTrue hbig =>
      intro hs
      rcases List.mem_append.1 hs with hs' | hs3
      · rcases List.mem_append.1 hs' with hs1 | hs2
        · revert hs1
          split
          case isTrue hcur =>
            cases hc : createSection path dt st cur pn with
            | some s' =>
              intro hs1
              simp only [hc, List.mem_singleton] at hs1
              subst hs1
              rcases hinv with rfl | ⟨-, hest⟩
              · exact absurd rfl hcur
              · exact createSection_bound (Or.inl hest) hc
            | none => intro hs1; simp [hc] at hs1
          · intro hs1; simp at hs1
        · exact emitParts_bound _ _ (fun ch hch => soc_bound para ch hch) s hs2
      · exact ih [] 0 _ hrpar (Or.inl rfl) s hs3
    case isFalse hbig =>
      split
      case isTrue hflush =>
        have hinv' : para = [] ∨
            (para.length + 2 ≤ 6 * estimateTokens para ∧
              estimateTokens para ≤ 1200) := by
          refine Or.inr ⟨?_, by omega⟩
          have := est_le_four_mul para
          omega
        cases hc : createSection path dt st cur pn with
        | some s' =>
          intro hs
          simp only [hc, List.mem_cons] at hs
          rcases hs with rfl | hs
          · rcases hinv with rfl | ⟨-, hest⟩
            · exact absurd rfl hflush.2
            · exact createSection_bound (Or.inl hest) hc
          · exact ih para (estimateTokens para) (pn + 1) hrpar hinv' s hs
        | none =>
          intro hs
          simp only [hc] at hs
          exact ih para (estimateTokens para) pn hrpar hinv' s hs
      case isFalse hacc =>
        intro hs
        refine ih _ _ pn hrpar ?_ s hs
        by_cases hcur : cur = []
        · subst hcur
          rw [if_pos rfl]
          simp only [List.nil_append]
          refine Or.inr ⟨?_, by omega⟩
          have := est_le_four_mul para
          omega
        · rw [if_neg hcur]
          rcases hinv with rfl | ⟨hlen, hest⟩
          · exact absurd rfl hcur
          · have h800 : tok + estimateTokens para ≤ 800 := by
              rw [not_and_or] at hacc
              rcases hacc with hacc | hacc
              · omega
              · exact absurd hcur (by simpa using hacc)
            refine Or.inr ⟨?_, ?_⟩
            · have := est_le_four_mul para
              simp only [List.length_append, List.length_cons]
              omega
            · have hlen2 : (cur ++ '\n' :: '\n' :: para).length ≤ 4798 := by
                have := est_le_four_mul para
                simp only [List.length_append, List.length_cons]
                omega
              unfold estimateTokens
              omega
    done

theorem finalizeSection_bound (path dt : String) (curH2 : Option String)
    (curNodes : List MdNode) :
    ∀ s ∈ finalizeSection path dt curH2 curNodes,
      5 ≤ s.tokens ∧ (s.tokens ≤ 1200 ∨ '\n' ∉ s.content) := by
  intro s hs
  cases curH2 with
  | none => simp [finalizeSection] at hs
  | some t =>
    simp only [finalizeSection] at hs
    by_cases h1 : curNodes = []
    · rw [if_pos h1] at hs; simp at hs
    rw [if_neg h1] at hs
    by_cases h2 : cleanMdxContent (astToMarkdown curNodes) = []
    · rw [if_pos h2] at hs; simp at hs
    rw [if_neg h2] at hs
    by_cases h3 :
        isTableOfContents t (cleanMdxContent (astToMarkdown curNodes)) = true
    · rw [if_pos h3] at hs; simp at hs
    rw [if_neg h3] at hs
    by_cases h4 : 800 < estimateTokens (cleanMdxContent (astToMarkdown curNodes))
    · rw [if_pos h4] at hs
      exact sapGo_bound _ [] 0 1 (cleanMdx_paras_nonempty h2) (Or.inl rfl)
        s hs
    rw [if_neg h4] at hs
    by_cases h5 : 5 ≤ estimateTokens (cleanMdxContent (astToMarkdown curNodes))
    · rw [if_pos h5] at hs
      simp only [List.mem_singleton] at hs
      subst hs
      refine ⟨h5, Or.inl ?_⟩
      show estimateTokens (cleanMdxContent (astToMarkdown curNodes)) ≤ 1200
      omega
    · rw [if_neg h5] at hs
      simp at hs

theorem pmGo_bound (path dt : String) :
    ∀ (nodes : List MdNode) (curH2 : Option String) (curNodes : List MdNode),
      ∀ s ∈ pmGo path dt nodes curH2 curNodes,
        5 ≤ s.tokens ∧ (s.tokens ≤ 1200 ∨ '\n' ∉ s.content) := by
  intro nodes
  induction nodes with
  | nil =>
    intro curH2 curNodes s hs
    rw [pmGo] at hs
    exact finalizeSection_bound path dt _ _ s hs
  | cons n rest ih =>
    intro curH2 curNodes s hs
    rw [pmGo] at hs
    revert hs
    split
    · intro hs
      rcases List.mem_append.1 hs with hs | hs
      · exact finalizeSection_bound path dt _ _ s hs
      · exact ih _ _ s hs
    · split
      · intro hs; exact ih _ _ s hs
      · split
        · intro hs; exact ih _ _ s hs
        · intro hs; exact ih _ _ s hs

/-- C1 (amended): every Section emitted by the chunking pipeline has
`tokenCount ≥ 5`; and every Section whose content contains a newline has
`tokenCount ≤ 1200`.  The 1200 upper bound can only be exceeded by a Section
that consists of a single newline-free line, which the line-splitting
fallback cannot cut (see the counterexample). -/
theorem claim_C1 (nodes : List MdNode) (path dt : String) :
    ∀ s ∈ parseMarkdownNodes nodes path dt,
      5 ≤ s.tokens ∧ ('\n' ∈ s.content → s.tokens ≤ 1200) := by
  intro s hs
  obtain ⟨h5, hd⟩ := pmGo_bound path dt nodes none [] s hs
  refine ⟨h5, fun hmem => ?_⟩
  rcases hd with hd | hd
  · exact hd
  · exact absurd hmem hd

theorem claim_C1_witness :
    5 ≤ demoKept.tokens ∧ ('\n' ∈ demoKept.content → demoKept.tokens ≤ 1200) :=
  claim_C1 demoDocNodes "docs/a.md" "DocA" demoKept (by decide)

/-! ## Evaluation lemmas for plain text (no tags, fences, links, spaces) -/

theorem removeTagsF_plain :
    ∀ (fuel : Nat) (l : List Char), (∀ c ∈ l, c ≠ '<') →
      removeTagsF fuel l = l := by
  intro fuel
  induction fuel with
  | zero => intro l _; cases l <;> simp [removeTagsF]
  | succ fuel ih =>
    intro l hl
    cases l with
    | nil => simp [removeTagsF]
    | cons c rest =>
      rw [removeTagsF,
        if_neg (hl c (List.mem_cons_self _ _)),
        ih rest fun x hx => hl x (List.mem_cons_of_mem _ hx)]

theorem collNlGo_plain (b : Bool) :
    ∀ l : List Char, '\n' ∉ l → collNlGo b l = l := by
  intro l
  induction l generalizing b with
  | nil => cases b <;> simp [collNlGo]
  | cons c rest ih =>
    intro hl
    have hc : ¬(c = '\n') := fun h => hl (h ▸ List.mem_cons_self _ _)
    have hrest : '\n' ∉ rest := fun h => hl (List.mem_cons_of_mem _ h)
    cases b with
    | true => rw [collNlGo, if_neg hc, ih false hrest]
    | false => rw [collNlGo, if_neg hc, ih false hrest]

theorem dropWhile_plain {p : Char → Bool} {l : List Char}
    (h : ∀ c ∈ l, p c = false) : l.dropWhile p = l := by
  cases l with
  | nil => simp [List.dropWhile]
  | cons c rest =>
    rw [List.dropWhile_cons, if_neg (by simp [h c (List.mem_cons_self _ _)])]

theorem trim_plain {l : List Char} (h : ∀ c ∈ l, jsWs c = false) :
    trim l = l := by
  unfold trim
  rw [dropWhile_plain h, dropWhile_plain fun c hc => h c (by
    rwa [List.mem_reverse] at hc), List.reverse_reverse]

theorem cleanMdx_plain {l : List Char}
    (h : ∀ c ∈ l, c ≠ '<' ∧ c ≠ '\n' ∧ jsWs c = false) :
    cleanMdxContent l = l := by
  unfold cleanMdxContent removeTags
  rw [removeTagsF_plain _ _ fun c hc => (h c hc).1]
  show trim (collapseNl l) = l
  unfold collapseNl
  rw [collNlGo_plain false l fun hc => (h '\n' hc).2.1 rfl]
  exact trim_plain fun c hc => (h c hc).2.2

theorem parasGo_plain :
    ∀ l : List Char, '\n' ∉ l → parasGo false l = [l] := by
  intro l
  induction l with
  | nil => simp [parasGo]
  | cons c rest ih =>
    intro hl
    have hc : ¬(c = '\n') := fun h => hl (h ▸ List.mem_cons_self _ _)
    have hrest : '\n' ∉ rest := fun h => hl (List.mem_cons_of_mem _ h)
    rw [parasGo, if_neg (by simp [hc]), ih hrest]
    rfl

theorem linesOf_plain :
    ∀ l : List Char, '\n' ∉ l → linesOf l = [l] := by
  intro l
  induction l with
  | nil => simp [linesOf]
  | cons c rest ih =>
    intro hl
    have hc : ¬(c = '\n') := fun h => hl (h ▸ List.mem_cons_self _ _)
    have hrest : '\n' ∉ rest := fun h => hl (List.mem_cons_of_mem _ h)
    rw [linesOf, if_neg hc, ih hrest]
    rfl

theorem startsTicks_false {c : Char} {rest : List Char} (hc : c ≠ '`') :
    startsTicks (c :: rest) = false := by
  rw [startsTicks.eq_def]
  split
  case h_1 h =>
    injection h with h1 _
    exact absurd h1 hc
  case h_2 => rfl

theorem findTicks_plain :
    ∀ l : List Char, '`' ∉ l → findTicks l = none := by
  intro l
  induction l with
  | nil => simp [findTicks]
  | cons c rest ih =>
    intro hl
    have hc : c ≠ '`' := fun h => hl (h ▸ List.mem_cons_self _ _)
    have hrest : '`' ∉ rest := fun h => hl (List.mem_cons_of_mem _ h)
    rw [findTicks, if_neg (by simp [startsTicks_false hc]), ih hrest]
    rfl

theorem findFence_plain {l : List Char} (h : '`' ∉ l) :
    findFence l = none := by
  unfold findFence
  rw [findTicks_plain l h]

theorem fenceSegsF_of_none {l : List Char} (h : findFence l = none) :
    ∀ fuel, fenceSegsF fuel l = [(l, false)] := by
  intro fuel
  cases fuel with
  | zero => rfl
  | succ fuel => rw [fenceSegsF, h]

theorem fenceParts_plain {l : List Char} (hbt : '`' ∉ l)
    (hws : ∀ c ∈ l, jsWs c = false) (hne : l ≠ []) :
    fenceParts l = [l] := by
  unfold fenceParts fenceSegs
  rw [fenceSegsF_of_none (findFence_plain hbt)]
  simp only [List.flatMap_cons, List.flatMap_nil, List.append_nil]
  unfold partsOfSeg
  simp only
  rw [if_neg (by simp), trim_plain hws, if_neg hne]

theorem tryLink_not_bracket {c : Char} {rest : List Char} (hc : c ≠ '[') :
    tryLink (c :: rest) = none := by
  rw [tryLink.eq_def]
  split
  case h_1 h =>
    injection h with h1 _
    exact absurd h1 hc
  case h_2 => rfl

theorem linkLenF_plain :
    ∀ (fuel : Nat) (l : List Char), '[' ∉ l → linkLenF fuel l = 0 := by
  intro fuel
  induction fuel with
  | zero => intro l _; cases l <;> simp [linkLenF]
  | succ fuel ih =>
    intro l hl
    cases l with
    | nil => simp [linkLenF]
    | cons c rest =>
      have hc : c ≠ '[' := fun h => hl (h ▸ List.mem_cons_self _ _)
      have hrest : '[' ∉ rest := fun h => hl (List.mem_cons_of_mem _ h)
      rw [linkLenF, tryLink_not_bracket hc]
      exact ih rest hrest

theorem lineChunks_plain {l : List Char} (hnl : '\n' ∉ l)
    (hws : ∀ c ∈ l, jsWs c = false) (hne : l ≠ []) :
    lineChunks l = [l] := by
  unfold lineChunks
  rw [linesOf_plain l hnl]
  rw [lineGo]
  rw [if_neg (by simp)]
  rw [show ([] ++ if ([] : List Char) = [] then l else '\n' :: l) = l by simp]
  rw [lineGo]
  rw [trim_plain hws, if_neg hne]

theorem soc_plain {l : List Char} (hnl : '\n' ∉ l) (hbt : '`' ∉ l)
    (hws : ∀ c ∈ l, jsWs c = false) :
    splitOversizedContent l = [l] := by
  unfold splitOversizedContent
  cases hlen : l.length with
  | zero =>
    have : l = [] := List.length_eq_zero.mp hlen
    subst this
    rfl
  | succ m =>
    have hne : l ≠ [] := by
      intro h
      rw [h] at hlen
      simp at hlen
    rw [socF]
    by_cases hbig : estimateTokens l ≤ 1200
    · rw [if_pos hbig]
    · rw [if_neg hbig, fenceParts_plain hbt hws hne]
      rw [if_neg (by simp)]
      exact lineChunks_plain hnl hws hne

/-- One oversized newline-free plain paragraph passes through
`splitAtParagraphs` unsplit: the fence split finds nothing, the line split
cannot cut a single line, and `createSection` emits it whole. -/
theorem sap_single_oversized (path dt st : String) {l : List Char}
    (hplain : ∀ c ∈ l, c ≠ '<' ∧ c ≠ '\n' ∧ jsWs c = false)
    (hbt : '`' ∉ l) (hbig : 1200 < estimateTokens l) :
    splitAtParagraphs path dt st l =
      [{ docPath := path, docTitle := dt, sectionTitle := st, content := l,
         tokens := estimateTokens l, hasCode := hasCodeBlock l }] := by
  have hnl : '\n' ∉ l := fun h => (hplain _ h).2.1 rfl
  have hclean : cleanMdxContent l = l := cleanMdx_plain hplain
  have hne : l ≠ [] := by
    intro h
    rw [h] at hbig
    simp [estimateTokens] at hbig
  unfold splitAtParagraphs
  rw [show parasOf l = [l] from parasGo_plain l hnl]
  rw [sapGo]
  rw [if_pos hbig]
  rw [if_neg (by simp)]
  rw [soc_plain hnl hbt fun c hc => (hplain c hc).2.2]
  have hcs : createSection path dt st l 1 = some
      { docPath := path, docTitle := dt, sectionTitle := st, content := l,
        tokens := estimateTokens l, hasCode := hasCodeBlock l } := by
    unfold createSection
    rw [if_neg (by rw [hclean]; push_neg; exact ⟨hne, by omega⟩)]
    rw [if_neg (by omega)]
    simp [hclean]
  simp [emitParts, hcs, sapGo]

/-- C1 counterexample: a document whose single H2 section body is one
4801-character line yields an emitted Section with `tokenCount = 1201`,
exceeding `HARD_MAX = 1200` (and the pipeline emits exactly that one
section). -/
theorem claim_C1_counterexample :
    (parseMarkdownNodes [.heading 2 "A" "## A".data, .block bigLine]
        "p" "D").map (fun s => s.tokens) = [1201] := by
  have hmem : ∀ c ∈ bigLine, c = 'a' := fun c hc =>
    List.eq_of_mem_replicate hc
  have hplain : ∀ c ∈ bigLine, c ≠ '<' ∧ c ≠ '\n' ∧ jsWs c = false := by
    intro c hc
    rw [hmem c hc]
    exact ⟨by decide, by decide, by decide⟩
  have hnl : '\n' ∉ bigLine := fun h => by simpa using hmem _ h
  have hbt : '`' ∉ bigLine := fun h => by simpa using hmem _ h
  have hbr : '[' ∉ bigLine := fun h => by simpa using hmem _ h
  have hlen : bigLine.length = 4801 := by
    rw [show bigLine = List.replicate 4801 'a' from rfl, List.length_replicate]
  have hne : bigLine ≠ [] := by
    intro h
    rw [h] at hlen
    simp at hlen
  have hest : estimateTokens bigLine = 1201 := by
    unfold estimateTokens
    rw [hlen]
  have hclean : cleanMdxContent bigLine = bigLine := cleanMdx_plain hplain
  have hpm : parseMarkdownNodes [.heading 2 "A" "## A".data, .block bigLine]
      "p" "D" = finalizeSection "p" "D" (some "A") [.block bigLine] := by
    simp [parseMarkdownNodes, pmGo, MdNode.isH2, MdNode.headText]
    rfl
  rw [hpm]
  simp only [finalizeSection]
  rw [if_neg (by simp)]
  have hast : astToMarkdown [MdNode.block bigLine] = bigLine := by
    simp [astToMarkdown, List.intercalate, MdNode.src]
  rw [hast, hclean, if_neg hne]
  have htoc : isTableOfContents "A" bigLine = false := by
    have hll : linkLen bigLine = 0 := linkLenF_plain _ _ hbr
    simp only [isTableOfContents]
    rw [if_neg (by decide)]
    rw [hll]
    simp
  rw [if_neg (by simp [htoc])]
  rw [if_pos (by rw [hest]; norm_num)]
  rw [sap_single_oversized "p" "D" "A" hplain hbt (by rw [hest]; norm_num)]
  simp [hest]

/-- C9 (amended): level-1 headings never *start* a section — every emitted
section's title stems from a level-2 heading or the synthetic
"Introduction" — and an H1 encountered before any section has started is
ignored entirely.  (Once a section has started, however, H1 nodes are pushed
into `currentNodes` like any other node and do appear in the section's
content; see the counterexample.) -/
theorem claim_C9 :
    (∀ (nodes : List MdNode) (path dt : String),
      ∀ s ∈ parseMarkdownNodes nodes path dt,
        ∃ t, (t = "Introduction" ∨ t ∈ h2texts nodes) ∧ titleShape t s) ∧
    (∀ (t1 : String) (src : List Char) (nodes : List MdNode) (path dt : String),
      parseMarkdownNodes (.heading 1 t1 src :: nodes) path dt =
        parseMarkdownNodes nodes path dt) := by
  constructor
  · intro nodes path dt s hs
    obtain ⟨t, ht, hshape, _⟩ := pmGo_titles path dt nodes none [] s hs
    refine ⟨t, ?_, hshape⟩
    rcases ht with ⟨hcontra, _⟩ | ht | ht
    · exact absurd hcontra (by simp)
    · exact Or.inl ht
    · exact Or.inr ht
  · intro t1 src nodes path dt
    rfl

theorem claim_C9_witness :
    ∃ t, (t = "Introduction" ∨ t ∈ h2texts demoDocNodes) ∧
      titleShape t demoKept :=
  claim_C9.1 demoDocNodes "docs/a.md" "DocA" demoKept (by decide)

/-- C9 counterexample: after a section has started, a level-1 heading *is*
collected into the section content: the document
`## Foo / text / # Big heading / more text here` yields one section whose
content contains the H1's source text verbatim — contradicting "level-1
headings never contribute to any emitted Section's content". -/
theorem claim_C9_counterexample :
    (parseMarkdownNodes
        [.heading 2 "Foo" "## Foo".data, .block "text".data,
         .heading 1 "Big" "# Big heading".data,
         .block "more text here".data] "p" "D").map (fun s => s.content) =
      ["text\n\n# Big heading\n\nmore text here".data] ∧
    containsSub "# Big heading".data
      "text\n\n# Big heading\n\nmore text here".data = true :=
  ⟨by decide, by decide⟩

/-! ## Claims about the ingestion deduplicator -/

theorem dedupSpec_subset : ∀ (l : List DocSection) (x : DocSection),
    x ∈ dedupSpec l → x ∈ l := by
  intro l
  induction l using dedupSpec.induct with
  | case1 => intro x hx; simp [dedupSpec] at hx
  | case2 s rest ih =>
    intro x hx
    rw [dedupSpec] at hx
    rcases List.mem_cons.1 hx with rfl | hx
    · exact List.mem_cons_self _ _
    · exact List.mem_cons_of_mem _ (List.mem_of_mem_filter (ih x hx))

theorem dedup_go_eq (l : List DocSection) :
    ∀ seen : List (List Char),
      dedupSectionsGo seen l =
        dedupSpec (l.filter fun x => decide (x.content ∉ seen)) := by
  induction l with
  | nil => intro seen; simp [dedupSectionsGo, dedupSpec]
  | cons s rest ih =>
    intro seen
    rw [dedupSectionsGo, List.filter_cons]
    by_cases h : s.content ∈ seen
    · rw [if_pos h, if_neg (by simpa using h)]
      exact ih seen
    · rw [if_neg h, if_pos (by simpa using h), dedupSpec]
      congr 1
      rw [List.filter_filter, ih (s.content :: seen)]
      congr 1
      apply List.filter_congr
      intro x _
      by_cases hx : x.content = s.content <;>
        by_cases hx2 : x.content ∈ seen <;>
        simp [hx, hx2]

theorem dedupSpec_nodup : ∀ l : List DocSection,
    ((dedupSpec l).map fun s => s.content).Nodup := by
  intro l
  induction l using dedupSpec.induct with
  | case1 => simp [dedupSpec]
  | case2 s rest ih =>
    rw [dedupSpec]
    simp only [List.map_cons, List.nodup_cons]
    refine ⟨?_, ih⟩
    intro hmem
    obtain ⟨x, hx, hxc⟩ := List.mem_map.1 hmem
    have hxf := dedupSpec_subset _ x hx
    have := List.of_mem_filter hxf
    simp [hxc] at this

theorem dedupSpec_content_mem : ∀ (l : List DocSection) (c : List Char),
    (∃ x ∈ l, x.content = c) → ∃ x ∈ dedupSpec l, x.content = c := by
  intro l
  induction l using dedupSpec.induct with
  | case1 => intro c hc; simpa using hc
  | case2 s rest ih =>
    intro c hc
    obtain ⟨x, hx, rfl⟩ := hc
    rcases List.mem_cons.1 hx with rfl | hx
    · exact ⟨x, by rw [dedupSpec]; exact List.mem_cons_self _ _, rfl⟩
    · by_cases hsx : x.content = s.content
      · refine ⟨s, by rw [dedupSpec]; exact List.mem_cons_self _ _, hsx.symm⟩
      · obtain ⟨y, hy, hyc⟩ := ih x.content
          ⟨x, List.mem_filter.2 ⟨hx, by simpa using hsx⟩, rfl⟩
        exact ⟨y, by rw [dedupSpec]; exact List.mem_cons_of_mem _ hy, hyc⟩

theorem filter_decomp {q : DocSection → Bool} :
    ∀ (l pre1 : List DocSection) (x : DocSection) (suf1 : List DocSection),
      l.filter q = pre1 ++ x :: suf1 →
      ∃ pre suf, l = pre ++ x :: suf ∧ pre.filter q = pre1 := by
  intro l
  induction l with
  | nil =>
    intro pre1 x suf1 h
    simp at h
  | cons a rest ih =>
    intro pre1 x suf1 h
    rw [List.filter_cons] at h
    by_cases hq : q a
    · rw [if_pos hq] at h
      cases pre1 with
      | nil =>
        simp only [List.nil_append] at h
        injection h with h1 h2
        subst h1
        exact ⟨[], rest, rfl, rfl⟩
      | cons b pre1' =>
        simp only [List.cons_append] at h
        injection h with h1 h2
        subst h1
        obtain ⟨pre, suf, rfl, hpre⟩ := ih pre1' x suf1 h2
        refine ⟨a :: pre, suf, rfl, ?_⟩
        rw [List.filter_cons, if_pos hq, hpre]
    · rw [if_neg hq] at h
      obtain ⟨pre, suf, rfl, hpre⟩ := ih pre1 x suf1 h
      refine ⟨a :: pre, suf, rfl, ?_⟩
      rw [List.filter_cons, if_neg hq, hpre]

theorem dedupSpec_first : ∀ (l : List DocSection) (x : DocSection),
    x ∈ dedupSpec l →
    ∃ pre suf, l = pre ++ x :: suf ∧ ∀ p ∈ pre, p.content ≠ x.content := by
  intro l
  induction l using dedupSpec.induct with
  | case1 => intro x hx; simp [dedupSpec] at hx
  | case2 s rest ih =>
    intro x hx
    rw [dedupSpec] at hx
    rcases List.mem_cons.1 hx with rfl | hx
    · exact ⟨[], rest, rfl, by simp⟩
    · have hxs : x.content ≠ s.content := by
        have := List.of_mem_filter (dedupSpec_subset _ x hx)
        simpa using this
      obtain ⟨pre1, suf1, hsplit, hpre1⟩ := ih x hx
      obtain ⟨pre, suf, rfl, hpre⟩ := filter_decomp rest pre1 x suf1 hsplit
      refine ⟨s :: pre, suf, rfl, ?_⟩
      intro p hp
      rcases List.mem_cons.1 hp with rfl | hp
      · exact fun hc => hxs hc.symm
      · by_cases hq : p.content = s.content
        · rw [hq]
          exact fun hc => hxs hc.symm
        · have hpf : p ∈ pre.filter fun y => !(y.content == s.content) :=
            List.mem_filter.2 ⟨hp, by simpa using hq⟩
          rw [hpre] at hpf
          exact hpre1 p hpf

/-- C7: within one build, a parsed section is kept exactly when its
content-only hash (modelled as the content itself; titles and source paths
are not hashed) has not occurred earlier in file-processing order:
`buildSections` equals the spec-side first-wins dedup, kept contents are
pairwise distinct, every parsed content is represented, each kept section is
the first section in processing order with its content, and the three
byte-identical demo documents keep exactly the first document's section. -/
theorem claim_C7 (files : List MdFile) :
    buildSections files =
      dedupSpec (files.flatMap fun f =>
        parseMarkdownNodes f.nodes f.path f.docTitle) ∧
    ((buildSections files).map fun s => s.content).Nodup ∧
    (∀ s ∈ files.flatMap fun f =>
        parseMarkdownNodes f.nodes f.path f.docTitle,
      ∃ x ∈ buildSections files, x.content = s.content) ∧
    (∀ x ∈ buildSections files,
      ∃ pre suf,
        (files.flatMap fun f =>
          parseMarkdownNodes f.nodes f.path f.docTitle) = pre ++ x :: suf ∧
        ∀ p ∈ pre, p.content ≠ x.content) ∧
    buildSections demoFiles = [demoKept] := by
  have h0 : buildSections files =
      dedupSpec (files.flatMap fun f =>
        parseMarkdownNodes f.nodes f.path f.docTitle) := by
    unfold buildSections
    rw [dedup_go_eq]
    congr 1
    apply List.filter_eq_self.mpr
    intro x _
    simp
  refine ⟨h0, ?_, ?_, ?_, by decide⟩
  · rw [h0]; exact dedupSpec_nodup _
  · intro s hs
    rw [h0]
    exact dedupSpec_content_mem _ s.content ⟨s, hs, rfl⟩
  · intro x hx
    rw [h0] at hx
    exact dedupSpec_first _ x hx

theorem claim_C7_witness : buildSections demoFiles = [demoKept] :=
  (claim_C7 demoFiles).2.2.2.2

theorem claim_C5_witness :
    ∃ n, n ≤ 2 ∧
      applyTokenBudget [demoChunk 1 900 10, demoChunk 2 1200 9] =
        [demoChunk 1 900 10, demoChunk 2 1200 9].take n ∧
      sumTok ([demoChunk 1 900 10, demoChunk 2 1200 9].take n) ≤ 2000 ∧
      ∀ c, [demoChunk 1 900 10, demoChunk 2 1200 9].get? n = some c →
        2000 < sumTok ([demoChunk 1 900 10, demoChunk 2 1200 9].take n) +
          c.tokens :=
  claim_C5.1 [demoChunk 1 900 10, demoChunk 2 1200 9]

theorem claim_C6_witness :
    filterByRelevance [demoChunk 5 10 6] =
      [demoChunk 5 10 6].filter fun m =>
        decide ((demoChunk 5 10 6).score * (1 / 2 : ℚ) ≤ m.score) :=
  claim_C6.2.1 (demoChunk 5 10 6) []

/-! ## Claims about the query sanitizer and empty results -/

/-- C8: when sanitizing the topic yields the empty string, `search` returns
no results, and does so without invoking the full-text index: the result is
empty for every possible index oracle, which `searchFts` never calls. -/
theorem claim_C8 (topic : List Char) (h : buildQuery topic = [])
    (oracle : List Char → List ChunkMatch) :
    searchFts oracle topic = [] ∧ searchResults oracle topic = [] := by
  have hf : searchFts oracle topic = [] := by
    unfold searchFts
    simp [h]
  refine ⟨hf, ?_⟩
  unfold searchResults
  rw [hf]
  rfl

theorem claim_C8_witness :
    buildQuery "   ".data = [] ∧
    searchFts (fun _ => [demoChunk 1 100 10]) "   ".data = [] ∧
    searchResults (fun _ => [demoChunk 1 100 10]) "   ".data = [] := by
  have h : buildQuery "   ".data = [] := by decide
  have hc := claim_C8 "   ".data h (fun _ => [demoChunk 1 100 10])
  exact ⟨h, hc.1, hc.2⟩

/-- C10: if the relevance-filtered candidate list is non-empty but its first
candidate alone exceeds `MAX_TOKENS = 2000`, the budget loop breaks on the
first iteration and `search` returns an empty result list — no truncated or
partial snippet is produced. -/
theorem claim_C10 (oracle : List Char → List ChunkMatch) (topic : List Char)
    (c : ChunkMatch) (rest : List ChunkMatch)
    (h : filterByRelevance (searchFts oracle topic) = c :: rest)
    (hc : 2000 < c.tokens) :
    searchResults oracle topic = [] := by
  unfold searchResults applyTokenBudget
  rw [h]
  unfold budgetGo
  rw [if_pos (by omega)]
  rfl

/-! ## Claims about the document grouper/merger -/

theorem mergeGo_eq (rest : List ChunkMatch) :
    ∀ cur : ChunkMatch, (cur :: rest).Chain' (fun a b => a.id < b.id) →
      mergeGo cur rest = mergePairs (cur :: rest) := by
  induction rest with
  | nil => intro cur _; rfl
  | cons b rest ih =>
    intro cur h
    rw [List.chain'_cons] at h
    obtain ⟨hab, hbrest⟩ := h
    rw [mergeGo]
    by_cases hb : b.id = cur.id + 1
    · rw [if_pos hb]
      have hcomb : (combineChunks cur b).id = cur.id := rfl
      have hchain : (combineChunks cur b :: rest).Chain'
          (fun a b => a.id < b.id) := by
        cases rest with
        | nil => simp
        | cons c rest2 =>
          rw [List.chain'_cons] at hbrest ⊢
          exact ⟨by rw [hcomb]; omega, hbrest.2⟩
      rw [ih (combineChunks cur b) hchain]
      have hrhs : mergePairs (combineChunks cur b :: rest) =
          combineChunks cur b :: mergePairs rest := by
        cases rest with
        | nil => rfl
        | cons c rest2 =>
          rw [List.chain'_cons] at hbrest
          have : ¬(c.id = (combineChunks cur b).id + 1) := by
            rw [hcomb]; omega
          rw [mergePairs, if_neg this]
      rw [hrhs, mergePairs, if_pos hb]
    · rw [if_neg hb]
      rw [ih b hbrest]
      rw [mergePairs, if_neg hb]

/-- C2 (amended): within one document group sorted by strictly ascending
chunk id, the merger joins a chunk into the current merged group exactly when
its id equals the id of the group's *first* chunk plus one (the source never
updates `current.id` while merging) — so only pairs of consecutive ids
collapse; this is `mergePairs`.  Two selected candidates with consecutive ids
yield one snippet whose title is the document title, `" > "`, then the
section titles joined with `" / "`, whose content joins the contents with a
blank line, and whose token count is the sum. -/
theorem claim_C2 :
    (∀ ms : List ChunkMatch, ms.Chain' (fun a b => a.id < b.id) →
      mergeAdjacentChunks ms = mergePairs ms) ∧
    (combineChunks (namedChunk 1 "A" "aaa") (namedChunk 2 "B" "bbb")).tokens =
      (namedChunk 1 "A" "aaa").tokens + (namedChunk 2 "B" "bbb").tokens ∧
    assembleResults [namedChunk 1 "A" "aaa", namedChunk 2 "B" "bbb"] =
      [{ title := "Doc > A / B", content := "aaa\n\nbbb".data,
         source := "docs/a.md" }] := by
  refine ⟨?_, rfl, by decide⟩
  intro ms h
  match ms with
  | [] => rfl
  | [c] => rfl
  | a :: b :: rest => exact mergeGo_eq (b :: rest) a h

theorem claim_C2_witness :
    ([namedChunk 1 "A" "aaa", namedChunk 3 "C" "ccc"] :
        List ChunkMatch).Chain' (fun a b => a.id < b.id) ∧
    mergeAdjacentChunks [namedChunk 1 "A" "aaa", namedChunk 3 "C" "ccc"] =
      mergePairs [namedChunk 1 "A" "aaa", namedChunk 3 "C" "ccc"] := by
  have hchain : ([namedChunk 1 "A" "aaa", namedChunk 3 "C" "ccc"] :
      List ChunkMatch).Chain' (fun a b => a.id < b.id) :=
    List.chain'_cons.mpr ⟨by decide, List.chain'_singleton _⟩
  exact ⟨hchain, claim_C2.1 _ hchain⟩

/-- C2 counterexample: three budget-selected candidates of one document with
consecutive ids 1, 2, 3 do not merge into a single snippet titled
`"A / B / C"`; the code produces two snippets, and their titles are prefixed
with the document title. -/
theorem claim_C2_counterexample :
    assembleResults
        [namedChunk 1 "A" "aaa", namedChunk 2 "B" "bbb",
          namedChunk 3 "C" "ccc"] =
      [{ title := "Doc > A / B", content := "aaa\n\nbbb".data,
         source := "docs/a.md" },
       { title := "Doc > C", content := "ccc".data,
         source := "docs/a.md" }] := by decide

theorem claim_C10_witness :
    searchResults (fun _ => [demoChunk 1 3000 4]) "query".data = [] := by
  apply claim_C10 _ _ (demoChunk 1 3000 4) []
  · have h1 : searchFts (fun _ => [demoChunk 1 3000 4]) "query".data =
        [demoChunk 1 3000 4] := rfl
    rw [h1]
    show List.filter _ _ = _
    simp only [List.filter_cons, List.filter_nil]
    norm_num [demoChunk]
  · decide

/-! ## Claim C3: reconstruction of oversized content from its parts -/

theorem flatten_consHead (c : Char) (ls : List (List Char)) :
    (consHead c ls).flatten = c :: ls.flatten := by
  cases ls <;> simp [consHead]

theorem stripWs_append (l1 l2 : List Char) :
    stripWs (l1 ++ l2) = stripWs l1 ++ stripWs l2 := by
  simp [stripWs, List.filter_append]

theorem stripWs_cons (c : Char) (l : List Char) :
    stripWs (c :: l) = if jsWs c then stripWs l else c :: stripWs l := by
  simp only [stripWs, List.filter_cons]
  cases h : jsWs c <;> simp [h]

theorem stripWs_nl (l : List Char) : stripWs ('\n' :: l) = stripWs l := by
  rw [stripWs_cons, if_pos (by decide)]

theorem stripWs_nil : stripWs ([] : List Char) = [] := rfl

theorem stripWs_dropWhile (l : List Char) :
    stripWs (l.dropWhile jsWs) = stripWs l := by
  induction l with
  | nil => rfl
  | cons c rest ih =>
    rw [List.dropWhile_cons]
    by_cases h : jsWs c = true
    · rw [if_pos h, ih, stripWs_cons, if_pos h]
    · rw [if_neg h]

theorem stripWs_reverse (l : List Char) :
    stripWs l.reverse = (stripWs l).reverse := by
  simp [stripWs, List.filter_reverse]

theorem stripWs_trim (l : List Char) : stripWs (trim l) = stripWs l := by
  unfold trim
  rw [stripWs_reverse, stripWs_dropWhile, stripWs_reverse,
    List.reverse_reverse, stripWs_dropWhile]

theorem parasGo_strip :
    ∀ (l : List Char) (b : Bool), stripWs (parasGo b l).flatten = stripWs l := by
  intro l
  induction l with
  | nil => intro b; cases b <;> simp [parasGo, stripWs]
  | cons c rest ih =>
    intro b
    cases b with
    | true =>
      rw [parasGo]
      by_cases h : c = '\n'
      · rw [if_pos h, ih, h, stripWs_nl]
      · rw [if_neg h, flatten_consHead, stripWs_cons, stripWs_cons, ih]
    | false =>
      rw [parasGo]
      by_cases h : c = '\n' ∧ rest.head? = some '\n'
      · rw [if_pos h]
        simp only [List.flatten_cons, List.nil_append]
        rw [ih, h.1, stripWs_nl]
      · rw [if_neg h, flatten_consHead, stripWs_cons, stripWs_cons, ih]

theorem parasOf_strip (l : List Char) :
    stripWs (parasOf l).flatten = stripWs l :=
  parasGo_strip l false

theorem linesOf_strip (l : List Char) :
    stripWs (linesOf l).flatten = stripWs l := by
  induction l with
  | nil => simp [linesOf, stripWs]
  | cons c rest ih =>
    rw [linesOf]
    by_cases h : c = '\n'
    · rw [if_pos h]
      simp only [List.flatten_cons, List.nil_append]
      rw [ih, h, stripWs_nl]
    · rw [if_neg h, flatten_consHead, stripWs_cons, stripWs_cons, ih]

theorem lineGo_strip :
    ∀ (lines : List (List Char)) (cur : List Char) (tok : Nat),
      stripWs (lineGo lines cur tok).flatten =
        stripWs cur ++ stripWs lines.flatten := by
  intro lines
  induction lines with
  | nil =>
    intro cur tok
    rw [lineGo]
    by_cases h : trim cur = []
    · rw [if_pos h]
      have h2 : stripWs cur = [] := by
        rw [← stripWs_trim, h]
        rfl
      simp [h2, stripWs_nil]
    · rw [if_neg h]
      simp only [List.flatten_cons, List.flatten_nil, List.append_nil]
      rw [stripWs_trim]
      simp [stripWs_nil]
  | cons line rest ih =>
    intro cur tok
    rw [lineGo]
    by_cases h : 1200 < tok + estimateTokens (line ++ ['\n']) ∧ cur ≠ []
    · rw [if_pos h]
      simp only [List.flatten_cons]
      rw [stripWs_append, stripWs_trim, ih]
      simp [stripWs_append, List.append_assoc]
    · rw [if_neg h, ih]
      by_cases hcur : cur = []
      · simp [hcur, stripWs_append, stripWs_nil, List.append_assoc]
      · rw [if_neg hcur]
        simp [stripWs_append, stripWs_nl, List.append_assoc]

theorem lineChunks_strip (l : List Char) :
    stripWs (lineChunks l).flatten = stripWs l := by
  unfold lineChunks
  rw [lineGo_strip, linesOf_strip]
  simp [stripWs]

theorem partsOfSeg_strip (p : List Char) (b : Bool) :
    stripWs (partsOfSeg (p, b)).flatten = stripWs p := by
  unfold partsOfSeg
  by_cases hb : b = true
  · rw [if_pos hb]
    simp
  · rw [if_neg hb]
    by_cases ht : trim p = []
    · rw [if_pos ht]
      have h2 : stripWs p = [] := by
        rw [← stripWs_trim, ht]
        rfl
      simp [h2, stripWs_nil]
    · rw [if_neg ht]
      simp [stripWs_trim]

theorem fenceSegsF_strip :
    ∀ (fuel : Nat) (l : List Char),
      stripWs ((fenceSegsF fuel l).flatMap partsOfSeg).flatten = stripWs l := by
  intro fuel
  induction fuel with
  | zero =>
    intro l
    rw [fenceSegsF]
    simp only [List.flatMap_cons, List.flatMap_nil, List.append_nil]
    simpa using partsOfSeg_strip l false
  | succ fuel ih =>
    intro l
    rw [fenceSegsF]
    cases hf : findFence l with
    | none =>
      simp only [List.flatMap_cons, List.flatMap_nil, List.append_nil]
      simpa using partsOfSeg_strip l false
    | some ie =>
      obtain ⟨i, e⟩ := ie
      obtain ⟨hie, hel⟩ := findFence_bounds hf
      simp only [List.flatMap_cons, List.flatten_append]
      rw [stripWs_append, stripWs_append, partsOfSeg_strip, partsOfSeg_strip,
        ih]
      have h1 : (l.drop i).drop (e - i) = l.drop e := by
        rw [List.drop_drop]
        congr 1
        omega
      have hdec : l.take i ++ ((l.drop i).take (e - i) ++ l.drop e) = l := by
        rw [← h1, List.take_append_drop, List.take_append_drop]
      conv_rhs => rw [← hdec]
      rw [stripWs_append, stripWs_append]

theorem fenceParts_strip (l : List Char) :
    stripWs (fenceParts l).flatten = stripWs l := by
  unfold fenceParts fenceSegs
  exact fenceSegsF_strip l.length l

theorem flatMap_strip (f : List Char → List (List Char)) :
    ∀ ls : List (List Char),
      (∀ p ∈ ls, stripWs (f p).flatten = stripWs p) →
      stripWs ((ls.flatMap f).flatten) = stripWs ls.flatten := by
  intro ls
  induction ls with
  | nil => intro _; simp
  | cons p rest ih =>
    intro h
    simp only [List.flatMap_cons, List.flatten_append, List.flatten_cons]
    rw [stripWs_append, stripWs_append, h p (by simp),
      ih fun q hq => h q (by simp [hq])]

theorem socF_strip :
    ∀ (fuel : Nat) (l : List Char),
      stripWs (socF fuel l).flatten = stripWs l := by
  intro fuel
  induction fuel with
  | zero => intro l; simp [socF]
  | succ fuel ih =>
    intro l
    rw [socF]
    by_cases h1 : estimateTokens l ≤ 1200
    · rw [if_pos h1]
      simp
    · rw [if_neg h1]
      by_cases h2 : 1 < (fenceParts l).length
      · rw [if_pos h2]
        rw [flatMap_strip (socF fuel) (fenceParts l) fun p _ => ih p]
        exact fenceParts_strip l
      · rw [if_neg h2]
        exact lineChunks_strip l

theorem soc_strip (l : List Char) :
    stripWs (splitOversizedContent l).flatten = stripWs l :=
  socF_strip l.length l

theorem rawGo_strip :
    ∀ (paras : List (List Char)) (cur : List Char) (tok : Nat),
      stripWs (rawGo paras cur tok).flatten =
        stripWs cur ++ stripWs paras.flatten := by
  intro paras
  induction paras with
  | nil =>
    intro cur tok
    rw [rawGo]
    by_cases h : cur = []
    · simp [h, stripWs]
    · rw [if_pos h]
      simp [stripWs]
  | cons para rest ih =>
    intro cur tok
    rw [rawGo]
    by_cases h1 : 1200 < estimateTokens para
    · rw [if_pos h1]
      simp only [List.flatten_append]
      rw [stripWs_append, stripWs_append, ih, soc_strip]
      by_cases hc : cur = []
      · simp [hc, stripWs, List.append_assoc]
      · rw [if_pos hc]
        simp [stripWs, List.append_assoc]
    · rw [if_neg h1]
      by_cases h2 : 800 < tok + estimateTokens para ∧ cur ≠ []
      · rw [if_pos h2]
        simp only [List.flatten_cons]
        rw [stripWs_append, ih]
        simp [stripWs_append, List.append_assoc]
      · rw [if_neg h2, ih]
        by_cases hc : cur = []
        · simp [hc, stripWs_append, stripWs_nil, List.append_assoc]
        · rw [if_neg hc]
          simp [stripWs_append, stripWs_nl, List.append_assoc]

theorem rawChunks_strip (c : List Char) :
    stripWs (rawChunksOf c).flatten = stripWs c := by
  unfold rawChunksOf
  rw [rawGo_strip, parasOf_strip]
  simp [stripWs]

theorem createSection_isNone_pn (path dt st : String) (ch : List Char)
    (pn pn' : Nat) :
    createSection path dt st ch pn = none ↔
      createSection path dt st ch pn' = none := by
  unfold createSection
  by_cases hg : cleanMdxContent ch = [] ∨
      estimateTokens (cleanMdxContent ch) < 5
  · rw [if_pos hg, if_pos hg]
  · rw [if_neg hg, if_neg hg]
    simp

theorem succCount_cons (path dt st : String) (ch : List Char)
    (rest : List (List Char)) :
    succCount path dt st (ch :: rest) =
      succCount path dt st rest +
        (if (createSection path dt st ch 1).isSome then 1 else 0) := by
  simp [succCount, List.countP_cons]

theorem succCount_append (path dt st : String) (l1 l2 : List (List Char)) :
    succCount path dt st (l1 ++ l2) =
      succCount path dt st l1 + succCount path dt st l2 := by
  simp [succCount, List.countP_append]

theorem emitParts_eq (path dt st : String) :
    ∀ (chunks : List (List Char)) (pn : Nat),
      emitParts path dt st chunks pn =
        (buildFrom path dt st chunks pn,
          pn + succCount path dt st chunks) := by
  intro chunks
  induction chunks with
  | nil => intro pn; simp [emitParts, buildFrom, succCount]
  | cons ch rest ih =>
    intro pn
    cases hc : createSection path dt st ch pn with
    | some s =>
      have h1 : createSection path dt st ch 1 ≠ none := by
        intro h1
        have h2 := (createSection_isNone_pn path dt st ch 1 pn).1 h1
        rw [hc] at h2
        exact absurd h2 (by simp)
      have h3 : (createSection path dt st ch 1).isSome = true :=
        Option.isSome_iff_ne_none.mpr h1
      simp only [emitParts, buildFrom, hc, succCount_cons, ih]
      simp [h3]
      omega
    | none =>
      have h1 : createSection path dt st ch 1 = none :=
        (createSection_isNone_pn path dt st ch pn 1).1 hc
      simp only [emitParts, buildFrom, hc, succCount_cons, ih]
      simp [h1]

theorem buildFrom_append (path dt st : String) :
    ∀ (l1 l2 : List (List Char)) (pn : Nat),
      buildFrom path dt st (l1 ++ l2) pn =
        buildFrom path dt st l1 pn ++
          buildFrom path dt st l2 (pn + succCount path dt st l1) := by
  intro l1
  induction l1 with
  | nil => intro l2 pn; simp [buildFrom, succCount]
  | cons ch rest ih =>
    intro l2 pn
    cases hc : createSection path dt st ch pn with
    | some s =>
      have h1 : createSection path dt st ch 1 ≠ none := by
        intro h1
        have h2 := (createSection_isNone_pn path dt st ch 1 pn).1 h1
        rw [hc] at h2
        exact absurd h2 (by simp)
      have h3 : (createSection path dt st ch 1).isSome = true :=
        Option.isSome_iff_ne_none.mpr h1
      rw [List.cons_append]
      simp only [buildFrom, hc]
      rw [ih, succCount_cons, if_pos h3]
      have harr : pn + 1 + succCount path dt st rest =
          pn + (succCount path dt st rest + 1) := by omega
      rw [harr, List.cons_append]
    | none =>
      have h1 : createSection path dt st ch 1 = none :=
        (createSection_isNone_pn path dt st ch pn 1).1 hc
      rw [List.cons_append]
      simp only [buildFrom, hc]
      rw [ih, succCount_cons, h1]
      simp

theorem flush_eq (path dt st : String) (cur : List Char) (pn : Nat) :
    (if cur ≠ [] then
       match createSection path dt st cur pn with
       | some s => ([s], pn + 1)
       | none => ([], pn)
     else ([], pn)) =
      (buildFrom path dt st (if cur ≠ [] then [cur] else []) pn,
       pn + succCount path dt st (if cur ≠ [] then [cur] else [])) := by
  by_cases hc : cur = []
  · simp [hc, buildFrom, succCount]
  · rw [if_pos hc, if_pos hc]
    cases hcs : createSection path dt st cur pn with
    | some s =>
      have h1 : createSection path dt st cur 1 ≠ none := by
        intro h1
        have h2 := (createSection_isNone_pn path dt st cur 1 pn).1 h1
        rw [hcs] at h2
        exact absurd h2 (by simp)
      have h3 : (createSection path dt st cur 1).isSome = true :=
        Option.isSome_iff_ne_none.mpr h1
      simp [buildFrom, hcs, succCount_cons, h3, succCount]
    | none =>
      have h1 : createSection path dt st cur 1 = none :=
        (createSection_isNone_pn path dt st cur pn 1).1 hcs
      simp [buildFrom, hcs, succCount_cons, h1, succCount]

theorem sapGo_raw (path dt st : String) :
    ∀ (paras : List (List Char)) (cur : List Char) (tok pn : Nat),
      sapGo path dt st paras cur tok pn =
        buildFrom path dt st (rawGo paras cur tok) pn := by
  intro paras
  induction paras with
  | nil =>
    intro cur tok pn
    rw [sapGo, rawGo]
    by_cases h : cur = []
    · simp [h, buildFrom]
    · rw [if_pos h, if_pos h]
      cases hc : createSection path dt st cur pn with
      | some s => simp [buildFrom, hc]
      | none => simp [buildFrom, hc]
  | cons para rest ih =>
    intro cur tok pn
    rw [sapGo, rawGo]
    by_cases h1 : 1200 < estimateTokens para
    · rw [if_pos h1, if_pos h1]
      rw [flush_eq]
      simp only [emitParts_eq, ih, buildFrom_append, succCount_append]
      simp [List.append_assoc, Nat.add_assoc]
    · rw [if_neg h1, if_neg h1]
      by_cases h2 : 800 < tok + estimateTokens para ∧ cur ≠ []
      · rw [if_pos h2, if_pos h2]
        cases hcs : createSection path dt st cur pn with
        | some s =>
          simp only [buildFrom, hcs]
          rw [ih]
        | none =>
          simp only [buildFrom, hcs]
          rw [ih]
      · rw [if_neg h2, if_neg h2]
        exact ih _ _ _

theorem buildFrom_strip (path dt st : String) :
    ∀ (chunks : List (List Char)) (pn : Nat),
      (∀ ch ∈ chunks, goodPiece ch) →
      stripWs (((buildFrom path dt st chunks pn).map
        (fun s => s.content)).flatten) = stripWs chunks.flatten := by
  intro chunks
  induction chunks with
  | nil => intro pn _; simp [buildFrom]
  | cons ch rest ih =>
    intro pn h
    obtain ⟨hne, hmin, hstrip⟩ := h ch (by simp)
    have hcs : createSection path dt st ch pn = some
        { docPath := path, docTitle := dt,
          sectionTitle :=
            if 1 < pn then st ++ " (part " ++ toString pn ++ ")" else st,
          content := cleanMdxContent ch,
          tokens := estimateTokens (cleanMdxContent ch),
          hasCode := hasCodeBlock (cleanMdxContent ch) } := by
      unfold createSection
      rw [if_neg (by push_neg; exact ⟨hne, by omega⟩)]
    simp only [buildFrom, hcs, List.map_cons, List.flatten_cons]
    rw [stripWs_append, ih (pn + 1) fun q hq => h q (by simp [hq]), hstrip]
    rw [stripWs_append]

/-- C3 (amended): for oversized cleaned content, when every piece flushed by
the paragraph/fence/line splitter survives `createSection` — cleaned
non-empty, at least `MIN_CHUNK_TOKENS` tokens, and re-cleaning changes only
whitespace — the contents of the emitted part-sections, concatenated in part
order, reconstruct the original content modulo whitespace normalization.
(Without that assumption the property fails: pieces estimating below 5
tokens are silently discarded; see the counterexample.) -/
theorem claim_C3 (path dt st : String) (c : List Char)
    (hbig : 800 < estimateTokens c)
    (hgood : ∀ ch ∈ rawChunksOf c, goodPiece ch) :
    stripWs (((splitAtParagraphs path dt st c).map
      (fun s => s.content)).flatten) = stripWs c := by
  unfold splitAtParagraphs
  rw [sapGo_raw]
  rw [buildFrom_strip path dt st (rawGo (parasOf c) [] 0) 1 hgood]
  exact rawChunks_strip c

theorem parasGo_true_plain (l : List Char) (h : '\n' ∉ l) :
    parasGo true l = [l] := by
  cases l with
  | nil => simp [parasGo]
  | cons c rest =>
    have hc : ¬(c = '\n') := fun he => h (he ▸ List.mem_cons_self _ _)
    rw [parasGo, if_neg hc,
      parasGo_plain rest fun hm => h (List.mem_cons_of_mem _ hm)]
    rfl

theorem parasOf_sep :
    ∀ l1 l2 : List Char, '\n' ∉ l1 → '\n' ∉ l2 →
      parasOf (l1 ++ '\n' :: '\n' :: l2) = [l1, l2] := by
  intro l1
  induction l1 with
  | nil =>
    intro l2 _ h2
    show parasGo false ('\n' :: '\n' :: l2) = [[], l2]
    rw [parasGo, if_pos ⟨rfl, rfl⟩, parasGo, if_pos rfl,
      parasGo_true_plain l2 h2]
  | cons c rest ih =>
    intro l2 h1 h2
    have hc : ¬(c = '\n') := fun h => h1 (h ▸ List.mem_cons_self _ _)
    show parasGo false (c :: (rest ++ '\n' :: '\n' :: l2)) = [c :: rest, l2]
    rw [parasGo, if_neg fun hcon => hc hcon.1]
    rw [show parasGo false (rest ++ '\n' :: '\n' :: l2) = [rest, l2] from
      ih l2 (fun h => h1 (List.mem_cons_of_mem _ h)) h2]
    rfl

theorem claim_C3_witness :
    (800 < estimateTokens c3demo ∧
      ∀ ch ∈ rawChunksOf c3demo, goodPiece ch) ∧
    stripWs (((splitAtParagraphs "p" "Doc" "S" c3demo).map
      (fun s => s.content)).flatten) = stripWs c3demo := by
  have ha : ∀ x ∈ c3a, x = 'a' := fun x hx => List.eq_of_mem_replicate hx
  have hb : ∀ x ∈ c3b, x = 'b' := fun x hx => List.eq_of_mem_replicate hx
  have hla : c3a.length = 2000 := by
    rw [show c3a = List.replicate 2000 'a' from rfl, List.length_replicate]
  have hlb : c3b.length = 1600 := by
    rw [show c3b = List.replicate 1600 'b' from rfl, List.length_replicate]
  have hesta : estimateTokens c3a = 500 := by
    unfold estimateTokens
    rw [hla]
  have hestb : estimateTokens c3b = 400 := by
    unfold estimateTokens
    rw [hlb]
  have hne_a : c3a ≠ [] := by
    intro h
    rw [h] at hla
    simp at hla
  have hne_b : c3b ≠ [] := by
    intro h
    rw [h] at hlb
    simp at hlb
  have hnla : '\n' ∉ c3a := fun h => by simpa using ha _ h
  have hnlb : '\n' ∉ c3b := fun h => by simpa using hb _ h
  have hplaina : ∀ x ∈ c3a, x ≠ '<' ∧ x ≠ '\n' ∧ jsWs x = false := by
    intro x hx
    rw [ha x hx]
    exact ⟨by decide, by decide, by decide⟩
  have hplainb : ∀ x ∈ c3b, x ≠ '<' ∧ x ≠ '\n' ∧ jsWs x = false := by
    intro x hx
    rw [hb x hx]
    exact ⟨by decide, by decide, by decide⟩
  have hest : 800 < estimateTokens c3demo := by
    unfold estimateTokens
    have hl : c3demo.length = 3602 := by
      rw [show c3demo = c3a ++ '\n' :: '\n' :: c3b from rfl]
      simp only [List.length_append, List.length_cons, hla, hlb]
    rw [hl]
    norm_num
  have hraw : rawChunksOf c3demo = [c3a, c3b] := by
    unfold rawChunksOf
    rw [show c3demo = c3a ++ '\n' :: '\n' :: c3b from rfl]
    rw [parasOf_sep c3a c3b hnla hnlb]
    rw [rawGo]
    rw [if_neg (by rw [hesta]; norm_num)]
    rw [if_neg fun hcon => hcon.2 rfl]
    rw [show (([] : List Char) ++
        if ([] : List Char) = [] then c3a else '\n' :: '\n' :: c3a) = c3a
      by simp]
    rw [rawGo]
    rw [if_neg (by rw [hestb]; norm_num)]
    rw [if_pos ⟨by rw [hesta, hestb]; norm_num, hne_a⟩]
    rw [rawGo, if_pos hne_b]
  have hgood : ∀ ch ∈ rawChunksOf c3demo, goodPiece ch := by
    rw [hraw]
    intro ch hch
    simp only [List.mem_cons, List.not_mem_nil, or_false] at hch
    rcases hch with rfl | rfl
    · unfold goodPiece
      rw [cleanMdx_plain hplaina]
      exact ⟨hne_a, by rw [hesta]; norm_num, rfl⟩
    · unfold goodPiece
      rw [cleanMdx_plain hplainb]
      exact ⟨hne_b, by rw [hestb]; norm_num, rfl⟩
  exact ⟨⟨hest, hgood⟩, claim_C3 "p" "Doc" "S" c3demo hest hgood⟩

/-- C3 counterexample: content of 826 estimated tokens whose second
paragraph `"qq"` estimates to 1 token.  The splitter flushes `"qq"` as its
own piece, `createSection` silently discards it (below `MIN_CHUNK_TOKENS`),
and the concatenated part contents no longer reconstruct the original even
modulo whitespace. -/
theorem claim_C3_counterexample :
    800 < estimateTokens c3bad ∧
    stripWs (((splitAtParagraphs "p" "Doc" "S" c3bad).map
      (fun s => s.content)).flatten) ≠ stripWs c3bad := by
  have hc : ∀ x ∈ c3c, x = 'a' := fun x hx => List.eq_of_mem_replicate hx
  have hlc : c3c.length = 3300 := by
    rw [show c3c = List.replicate 3300 'a' from rfl, List.length_replicate]
  have hestc : estimateTokens c3c = 825 := by
    unfold estimateTokens
    rw [hlc]
  have hnlc : '\n' ∉ c3c := fun h => by simpa using hc _ h
  have hplainc : ∀ x ∈ c3c, x ≠ '<' ∧ x ≠ '\n' ∧ jsWs x = false := by
    intro x hx
    rw [hc x hx]
    exact ⟨by decide, by decide, by decide⟩
  have hne_c : c3c ≠ [] := by
    intro h
    rw [h] at hlc
    simp at hlc
  have hest : 800 < estimateTokens c3bad := by
    unfold estimateTokens
    have hl : c3bad.length = 3304 := by
      rw [show c3bad = c3c ++ '\n' :: '\n' :: ['q', 'q'] from rfl]
      simp only [List.length_append, List.length_cons, List.length_nil, hlc]
    rw [hl]
    norm_num
  refine ⟨hest, ?_⟩
  have hraw : rawGo (parasOf c3bad) [] 0 = [c3c, ['q', 'q']] := by
    rw [show c3bad = c3c ++ '\n' :: '\n' :: ['q', 'q'] from rfl]
    rw [parasOf_sep c3c ['q', 'q'] hnlc (by decide)]
    rw [rawGo]
    rw [if_neg (by rw [hestc]; norm_num)]
    rw [if_neg fun hcon => hcon.2 rfl]
    rw [show (([] : List Char) ++
        if ([] : List Char) = [] then c3c else '\n' :: '\n' :: c3c) = c3c
      by simp]
    rw [rawGo]
    rw [if_neg (by decide)]
    rw [if_pos ⟨by rw [hestc]; norm_num [estimateTokens], hne_c⟩]
    rw [rawGo, if_pos (by decide)]
  have hcs1 : createSection "p" "Doc" "S" c3c 1 = some
      { docPath := "p", docTitle := "Doc", sectionTitle := "S",
        content := c3c, tokens := 825, hasCode := hasCodeBlock c3c } := by
    unfold createSection
    rw [cleanMdx_plain hplainc]
    rw [if_neg (by push_neg; exact ⟨hne_c, by rw [hestc]; norm_num⟩)]
    rw [hestc]
    simp
  have hcs2 : createSection "p" "Doc" "S" ['q', 'q'] 2 = none := rfl
  have hsap : splitAtParagraphs "p" "Doc" "S" c3bad =
      [{ docPath := "p", docTitle := "Doc", sectionTitle := "S",
         content := c3c, tokens := 825, hasCode := hasCodeBlock c3c }] := by
    unfold splitAtParagraphs
    rw [sapGo_raw, hraw]
    simp [buildFrom, hcs1, hcs2]
  rw [hsap]
  simp only [List.map_cons, List.map_nil, List.flatten_cons,
    List.flatten_nil, List.append_nil]
  have hsc : stripWs c3c = c3c := by
    apply List.filter_eq_self.mpr
    intro x hx
    rw [hc x hx]
    decide
  have hsb : stripWs c3bad = c3c ++ ['q', 'q'] := by
    rw [show c3bad = c3c ++ '\n' :: '\n' :: ['q', 'q'] from rfl]
    rw [stripWs_append, hsc]
    rw [show stripWs ('\n' :: '\n' :: ['q', 'q']) = ['q', 'q'] from rfl]
  rw [hsc, hsb]
  intro h
  have hlen := congrArg List.length h
  rw [List.length_append, hlc] at hlen
  simp at hlen

end Ctx
